import Mathlib

/-!
Verification of the md2txt rendering pipeline.

The definitions below are a shallow embedding of the block parser
(`markdown_parser.py`), the text renderer (`text_renderer.py`) and the shared
style model (`models.py`).  Python strings are modelled as lists of
characters, Python lists as Lean lists, the renderer object as an explicit
state record, and the optional external capabilities (the PyHyphen
hyphenation dictionary, the pyfiglet banner engine) as function parameters.
All margin/width integers that the source clamps with `max(0, ...)` before
storing are modelled as naturals; the clamping arithmetic of `_margins` is
carried out in `Int` exactly as the source writes it.
-/

namespace Md2Txt

/-- Python strings, modelled as lists of characters. -/
abbrev Str := List Char

/-- Python `str.rstrip()`: drop trailing whitespace. -/
def pyRstrip (s : Str) : Str :=
  (s.reverse.dropWhile Char.isWhitespace).reverse

/-- Python `str.strip()`: drop leading and trailing whitespace. -/
def pyStrip (s : Str) : Str :=
  (pyRstrip s).dropWhile Char.isWhitespace

/-- Python `str.isspace()`: non-empty and all whitespace. -/
def pyIsSpace (s : Str) : Bool :=
  !s.isEmpty && s.all Char.isWhitespace

/-- `" " * n`. -/
def spaces (n : Nat) : Str := List.replicate n ' '

/-- Python truthy-`or` on strings: `a or b` (the empty string is falsy). -/
def pyOrS (a b : String) : String := if a = "" then b else a

/-- Python truthy-`or` where the left operand is an optional string
(`None` and `""` are both falsy). -/
def pyOrStr (a : Option String) (b : String) : String :=
  match a with
  | some s => if s = "" then b else s
  | none => b

/-- Python truthy-`or` of two optional strings, as in `second.align or first.align`. -/
def pyOrOpt (a b : Option String) : Option String :=
  match a with
  | some s => if s = "" then b else some s
  | none => b

/-- `max(0, i)` for a Python `int` configuration value. -/
def intClamp (i : Int) : Nat := (max 0 i).toNat

/-- Python `str.lower()`.  (Lean's `String.toLower` is the same character
map, but its implementation does not reduce definitionally, so the map is
spelled out.) -/
def pyLowerStr (s : String) : String := ⟨s.data.map Char.toLower⟩

/-- `BlockStyle` (models.py): a fully resolved alignment/margin descriptor.
Margins are naturals: every source path that stores one clamps it with
`max(0, ...)` first. -/
structure BlockStyle where
  align : String := "left"
  margin_left : Nat := 0
  margin_right : Nat := 0
deriving Repr, DecidableEq

/-- `StyleSpec` (models.py): a sparse override. -/
structure StyleSpec where
  align : Option String := none
  margin_left : Option Nat := none
  margin_right : Option Nat := none
deriving Repr, DecidableEq

/-- `_combine_styles` (text_renderer.py:411-422; the identical copies in
markdown_parser.py:326-338 and md2txt.py:461-468 are this same function):
merge a sparse spec onto a resolved base style. -/
def combineStyles (base : BlockStyle) (spec : Option StyleSpec) : BlockStyle :=
  match spec with
  | none =>
    { align := base.align
      margin_left := base.margin_left
      margin_right := base.margin_right }
  | some s =>
    { align := pyOrStr s.align base.align
      margin_left := s.margin_left.getD base.margin_left
      margin_right := s.margin_right.getD base.margin_right }

/-- `_merge_specs` (markdown_parser.py:339-350; the identical copy in
md2txt.py:470-481): merge two optional sparse specs, second wins per field. -/
def mergeSpecs (first second : Option StyleSpec) : Option StyleSpec :=
  match first, second with
  | none, none => none
  | none, some s => some s
  | some f, none => some f
  | some f, some s =>
    some
      { align := pyOrOpt s.align f.align
        margin_left := match s.margin_left with
          | some v => some v
          | none => f.margin_left
        margin_right := match s.margin_right with
          | some v => some v
          | none => f.margin_right }

/-- `TextRenderer._margins` (text_renderer.py:337-342), computed in `Int`
exactly as the source does. -/
def marginsI (width : Nat) (style : BlockStyle) : Int × Int × Int :=
  let ml : Int := max 0 (min (style.margin_left : Int) ((width : Int) - 1))
  let remaining : Int := (width : Int) - ml
  let mr : Int := max 0 (min (style.margin_right : Int) (max 0 (remaining - 1)))
  let available : Int := max 1 ((width : Int) - ml - mr)
  (ml, mr, available)

/-- `TextRenderer._margins`, with the (provably non-negative) results returned
as naturals: `(margin_left, margin_right, available_width)`. -/
def margins (width : Nat) (style : BlockStyle) : Nat × Nat × Nat :=
  let m := marginsI width style
  (m.1.toNat, m.2.1.toNat, m.2.2.toNat)

theorem margins_left_add_available_le (width : Nat) (style : BlockStyle)
    (h : 1 ≤ width) : (margins width style).1 + (margins width style).2.2 ≤ width := by
  simp only [margins, marginsI]
  omega

theorem margins_available_pos (width : Nat) (style : BlockStyle) :
    1 ≤ (margins width style).2.2 := by
  simp only [margins, marginsI]
  omega

/-- The per-line alignment/indentation step shared verbatim by `_wrap_text`
(text_renderer.py:854-868) and `_wrap_text_hyphenated` (958-973): right-trim
the line, compute the alignment shift inside the available width, and clamp
the final indent so that the indent never pushes the line past the document
width. -/
def alignOne (width : Nat) (style : BlockStyle) (marginLeft availableWidth : Nat)
    (line : Str) : Str :=
  let stripped := pyRstrip line
  let lineLen := stripped.length
  let extraSpace := availableWidth - lineLen
  let extraLeft :=
    if style.align = "center" then extraSpace / 2
    else if style.align = "right" then extraSpace
    else 0
  let maxIndent := width - lineLen
  let indent := min (marginLeft + extraLeft) maxIndent
  spaces indent ++ stripped

/-- The alignment pass applied to every wrapped line (the `result` loops of
`_wrap_text` and `_wrap_text_hyphenated`). -/
def alignWrapped (width : Nat) (style : BlockStyle) (lines : List Str) : List Str :=
  let m := margins width style
  lines.map (alignOne width style m.1 m.2.2)

theorem alignOne_length_le (width : Nat) (style : BlockStyle)
    (marginLeft availableWidth : Nat) (line : Str) :
    (alignOne width style marginLeft availableWidth line).length ≤
      max width (pyRstrip line).length := by
  simp only [alignOne, spaces, List.length_append, List.length_replicate]
  omega

/-! ### Link registry -/

/-- The renderer's link registry: `self.links` (index/url pairs in first-seen
order) and `self.link_indices` (a url-to-index dictionary, modelled as an
association list whose keys are unique by construction). -/
structure LinkState where
  links : List (Nat × Str) := []
  linkIndices : List (Str × Nat) := []

/-- `TextRenderer._register_link` (text_renderer.py:811-817). -/
def registerLink (st : LinkState) (url : Str) : Nat × LinkState :=
  match st.linkIndices.lookup url with
  | some i => (i, st)
  | none =>
    let idx := st.links.length + 1
    (idx, { links := st.links ++ [(idx, url)],
            linkIndices := st.linkIndices ++ [(url, idx)] })

/-- `TextRenderer._split_link_target` (text_renderer.py:799-809). -/
def splitLinkTarget (value : Str) : Str × Option Str :=
  let value := pyStrip value
  if value = [] then ([], none)
  else if ¬ value.contains ' ' then (pyStrip value, none)
  else
    let url := value.takeWhile (fun c => c ≠ ' ')
    let remainder := pyStrip (value.drop (url.length + 1))
    if remainder.head? = some '"' ∧ remainder.getLast? = some '"' then
      (pyStrip url, some (((remainder.dropWhile (fun c => c = '"')).reverse.dropWhile
        (fun c => c = '"')).reverse))
    else (pyStrip url, some remainder)

/-! ### Inline transformation (`_process_inline` and its helpers) -/

/-- The NUL sentinel used by the inline placeholders. -/
def nulChar : Char := Char.ofNat 0

/-- The code-span placeholder `"\u0000CODE<i>\u0000"`. -/
def codePlaceholder (i : Nat) : Str :=
  nulChar :: ("CODE" ++ toString i).toList ++ [nulChar]

/-- The emphasis placeholder `"\u0000EMP<i>\u0000"`. -/
def empPlaceholder (i : Nat) : Str :=
  nulChar :: ("EMP" ++ toString i).toList ++ [nulChar]

/-- The `transform` step used by `_stylize_letters` and `_stylize_delimited`. -/
def applyTransform (transform : String) (c : Char) : Char :=
  if transform = "upper" then c.toUpper
  else if transform = "lower" then c.toLower
  else c

/-- Python `str.isalnum()` restricted to the ASCII range that the sources use. -/
def pyIsAlnumChar (c : Char) : Bool := c.isAlphanum

/-- Python `str.isalnum()` on a string chunk (`"".isalnum()` is false). -/
def pyIsAlnumStr (s : Str) : Bool := !s.isEmpty && s.all pyIsAlnumChar

/-- The character loop of `TextRenderer._stylize_letters` (text_renderer.py:704-744).
`result` mirrors the Python list of appended string chunks (the source tests
`result[-1]` against the one-character chunk `" "`), `prevAlnum` mirrors
`previous_alnum` and `pending` mirrors `pending_delimiter`. -/
def stylizeLettersGo (transform : String) :
    Str → List Str → Bool → Str → List Str
  | [], result, _, _ => result
  | ch :: cs, result, prevAlnum, pending =>
    let processed := applyTransform transform ch
    if processed.isWhitespace then
      let pending' :=
        if (result.getLast?.map pyIsAlnumStr).getD false then "   ".toList else pending
      stylizeLettersGo transform cs result false pending'
    else if pyIsAlnumChar processed then
      let result' :=
        if prevAlnum then result ++ [[' ']]
        else if pending ≠ [] then result ++ [pending]
        else if result ≠ [] then result ++ ["   ".toList]
        else result
      let pending' := if ¬ prevAlnum ∧ pending ≠ [] then [] else pending
      stylizeLettersGo transform cs (result' ++ [[processed]]) true pending'
    else
      let result' := if result.getLast? = some [' '] then result.dropLast else result
      let result'' := if pending ≠ [] then result' ++ [pyStrip pending] else result'
      stylizeLettersGo transform cs (result'' ++ [[processed]]) false []

/-- `TextRenderer._stylize_letters` (text_renderer.py:704-744). -/
def stylizeLetters (content : Str) (transform : String) : Str :=
  if content = [] then []
  else pyStrip (stylizeLettersGo transform content [] false []).flatten

/-- The character loop of `TextRenderer._stylize_delimited`
(text_renderer.py:746-784): `openSeq` mirrors `open_sequence`, `pendingGap`
mirrors `pending_gap`.  The one-character delimiter string of the source is a
`Char` here. -/
def stylizeDelimitedGo (delimiter : Char) (transform : String) (wordRepeat : Nat) :
    Str → Str → Bool → Bool → Str
  | [], output, openSeq, _ =>
    if ¬ openSeq then [delimiter, delimiter] else output ++ [delimiter]
  | ch :: cs, output, openSeq, pendingGap =>
    if ch.isWhitespace then
      stylizeDelimitedGo delimiter transform wordRepeat cs output openSeq
        (if openSeq then true else pendingGap)
    else
      let processed := applyTransform transform ch
      let output' :=
        if ¬ openSeq then output ++ [delimiter]
        else output ++ List.replicate (if pendingGap then wordRepeat else 1) delimiter
      stylizeDelimitedGo delimiter transform wordRepeat cs (output' ++ [processed]) true false

/-- `TextRenderer._stylize_delimited` (text_renderer.py:746-784). -/
def stylizeDelimited (content : Str) (delimiter : Char) (transform : String)
    (wordRepeat : Nat) : Str :=
  stylizeDelimitedGo delimiter transform wordRepeat content [] false false

/-- `TextRenderer._apply_emphasis_spacing` (text_renderer.py:689-702): pad the
replacement with two spaces on a side whose adjacent source character is
alphanumeric. -/
def applyEmphasisSpacing (source : Str) (start endPos : Nat) (stylized : Str) : Str :=
  if stylized = [] then stylized
  else
    let pfx := if 0 < start ∧ pyIsAlnumChar (source.getD (start - 1) ' ') then
      "  ".toList else []
    let sfx := if endPos < source.length ∧ pyIsAlnumChar (source.getD endPos ' ') then
      "  ".toList else []
    pfx ++ stylized ++ sfx

/-- `TextRenderer._replace_spaced_emphasis` (text_renderer.py:677-687). -/
def replaceSpacedEmphasis (source : Str) (content : Str) (start endPos : Nat)
    (transform : String) : Str :=
  let stylized := stylizeLetters content transform
  if stylized = [] then stylized
  else applyEmphasisSpacing source start endPos stylized

/-- The non-greedy closing scan of a `dd(.*?)dd` pattern (`~~`, `**`, `__`):
content stops at the first later occurrence of the doubled delimiter, and the
`.` of the pattern cannot cross a newline.  Returns the content together with
the text after the closing delimiter. -/
def findClose2 (d : Char) : Str → Option (Str × Str)
  | [] => none
  | [_] => none
  | a :: b :: rest =>
    if a = d ∧ b = d then some ([], rest)
    else if a = '\n' then none
    else
      match findClose2 d (b :: rest) with
      | some (content, after) => some (a :: content, after)
      | none => none

theorem takeWhile_length_le (p : Char → Bool) (l : Str) :
    (l.takeWhile p).length ≤ l.length :=
  (List.takeWhile_prefix p).length_le

theorem dropWhile_length_le (p : Char → Bool) (l : Str) :
    (l.dropWhile p).length ≤ l.length :=
  (List.dropWhile_suffix p).length_le

theorem findClose2_length (d : Char) :
    ∀ s content after, findClose2 d s = some (content, after) →
      content.length + 2 + after.length = s.length := by
  intro s
  induction s with
  | nil => intro c a h; simp [findClose2] at h
  | cons x xs ih =>
    intro c a h
    cases xs with
    | nil => simp [findClose2] at h
    | cons b rest =>
      rw [findClose2] at h
      split at h
      · simp only [Option.some.injEq, Prod.mk.injEq] at h
        obtain ⟨h1, h2⟩ := h
        subst h1; subst h2
        simp only [List.length_nil, List.length_cons]
        omega
      · split at h
        · exact absurd h (by simp)
        · cases hm : findClose2 d (b :: rest) with
          | none => rw [hm] at h; exact absurd h (by simp)
          | some p =>
            obtain ⟨content, after⟩ := p
            rw [hm] at h
            simp only [Option.some.injEq, Prod.mk.injEq] at h
            obtain ⟨h1, h2⟩ := h
            have hrec := ih content after hm
            subst h1 h2
            simp only [List.length_cons] at hrec ⊢
            omega

/-- `_apply_pattern` (text_renderer.py:661-675) specialised to the doubled
single-character delimiter patterns `~~(.*?)~~`, `\*\*(.*?)\*\*` and
`__(.*?)__`: leftmost, non-overlapping matches, the text rebuilt left to
right.  `pos` is the absolute position in the scanned text, so that a handler
can inspect the characters adjacent to a match exactly as
`_apply_emphasis_spacing` does on `m.start()`/`m.end()`.  Fuelled structural
recursion: every step consumes at least one character, so the `s.length + 1`
fuel supplied by the wrapper always suffices and the fuel-0 branch is
unreachable. -/
def applyPat2Go (d : Char) (handler : Str → Nat → Nat → Str) :
    Nat → Str → Nat → Str
  | 0, s, _ => s
  | _ + 1, [], _ => []
  | _ + 1, [a], _ => [a]
  | fuel + 1, a :: b :: rest, pos =>
    if a = d ∧ b = d then
      match findClose2 d rest with
      | some (content, after) =>
        let mEnd := pos + 2 + content.length + 2
        handler content pos mEnd ++ applyPat2Go d handler fuel after mEnd
      | none => a :: applyPat2Go d handler fuel (b :: rest) (pos + 1)
    else a :: applyPat2Go d handler fuel (b :: rest) (pos + 1)

/-- The doubled-delimiter substitution pass over a whole text. -/
def applyPat2 (d : Char) (handler : Str → Nat → Nat → Str) (s : Str) : Str :=
  applyPat2Go d handler (s.length + 1) s 0

/-- The placeholder-stashing variant of the doubled-delimiter pass, used for
`UNDERLINE_STRONG_RE` (text_renderer.py:612-636): each computed replacement is
appended to `segs` and an `\u0000EMP<i>\u0000` placeholder is emitted in its
place. -/
def applyPat2StashGo (d : Char) (handler : Str → Nat → Nat → Str) :
    Nat → Str → Nat → List Str → Str × List Str
  | 0, s, _, segs => (s, segs)
  | _ + 1, [], _, segs => ([], segs)
  | _ + 1, [a], _, segs => ([a], segs)
  | fuel + 1, a :: b :: rest, pos, segs =>
    if a = d ∧ b = d then
      match findClose2 d rest with
      | some (content, after) =>
        let mEnd := pos + 2 + content.length + 2
        let replacement := handler content pos mEnd
        let res := applyPat2StashGo d handler fuel after mEnd (segs ++ [replacement])
        (empPlaceholder segs.length ++ res.1, res.2)
      | none =>
        let res := applyPat2StashGo d handler fuel (b :: rest) (pos + 1) segs
        (a :: res.1, res.2)
    else
      let res := applyPat2StashGo d handler fuel (b :: rest) (pos + 1) segs
      (a :: res.1, res.2)

/-- The stashing doubled-delimiter pass over a whole text. -/
def applyPat2Stash (d : Char) (handler : Str → Nat → Nat → Str) (s : Str)
    (segs : List Str) : Str × List Str :=
  applyPat2StashGo d handler (s.length + 1) s 0 segs

/-- The non-greedy closing scan for the single-delimiter lookaround patterns
(`ITALIC_RE`, `UNDERLINE_EM_RE`): the closing delimiter must not be preceded
or followed by another copy of the delimiter, and content cannot cross a
newline.  `prv` is the character immediately before the scan point (initially
the opening delimiter itself). -/
def findClose1 (d : Char) : Char → Str → Option (Str × Str)
  | _, [] => none
  | prv, a :: rest =>
    if a = d ∧ prv ≠ d ∧ rest.head? ≠ some d then some ([], rest)
    else if a = '\n' then none
    else
      match findClose1 d a rest with
      | some (content, after) => some (a :: content, after)
      | none => none

theorem findClose1_length (d : Char) :
    ∀ s prv content after, findClose1 d prv s = some (content, after) →
      content.length + 1 + after.length = s.length := by
  intro s
  induction s with
  | nil => intro prv c a h; simp [findClose1] at h
  | cons x xs ih =>
    intro prv c a h
    rw [findClose1] at h
    split at h
    · simp only [Option.some.injEq, Prod.mk.injEq] at h
      obtain ⟨h1, h2⟩ := h
      subst h1; subst h2
      simp only [List.length_nil, List.length_cons]
      omega
    · split at h
      · exact absurd h (by simp)
      · cases hm : findClose1 d x xs with
        | none => rw [hm] at h; exact absurd h (by simp)
        | some p =>
          obtain ⟨content, after⟩ := p
          rw [hm] at h
          simp only [Option.some.injEq, Prod.mk.injEq] at h
          obtain ⟨h1, h2⟩ := h
          have hrec := ih x content after hm
          subst h1 h2
          simp only [List.length_cons] at hrec ⊢
          omega

/-- The pass for `ITALIC_RE`/`UNDERLINE_EM_RE`: a single delimiter not
adjacent to another copy opens a span, the first later single delimiter with
the same lookarounds closes it.  `prv` is the character before the scan point
(`none` at the start of the text, where the lookbehind succeeds).  Fuelled
like `applyPat2Go`. -/
def applyPat1Go (d : Char) (handler : Str → Nat → Nat → Str) :
    Nat → Option Char → Str → Nat → Str
  | 0, _, s, _ => s
  | _ + 1, _, [], _ => []
  | fuel + 1, prv, a :: rest, pos =>
    if a = d ∧ prv ≠ some d ∧ rest.head? ≠ some d then
      match findClose1 d a rest with
      | some (content, after) =>
        let mEnd := pos + 1 + content.length + 1
        handler content pos mEnd ++ applyPat1Go d handler fuel (some d) after mEnd
      | none => a :: applyPat1Go d handler fuel (some a) rest (pos + 1)
    else a :: applyPat1Go d handler fuel (some a) rest (pos + 1)

/-- The single-delimiter substitution pass over a whole text. -/
def applyPat1 (d : Char) (handler : Str → Nat → Nat → Str) (s : Str) : Str :=
  applyPat1Go d handler (s.length + 1) none s 0

/-- The placeholder-stashing variant of the single-delimiter pass, used for
`UNDERLINE_EM_RE` (text_renderer.py:637-646). -/
def applyPat1StashGo (d : Char) (handler : Str → Nat → Nat → Str) :
    Nat → Option Char → Str → Nat → List Str → Str × List Str
  | 0, _, s, _, segs => (s, segs)
  | _ + 1, _, [], _, segs => ([], segs)
  | fuel + 1, prv, a :: rest, pos, segs =>
    if a = d ∧ prv ≠ some d ∧ rest.head? ≠ some d then
      match findClose1 d a rest with
      | some (content, after) =>
        let mEnd := pos + 1 + content.length + 1
        let replacement := handler content pos mEnd
        let res := applyPat1StashGo d handler fuel (some d) after mEnd
          (segs ++ [replacement])
        (empPlaceholder segs.length ++ res.1, res.2)
      | none =>
        let res := applyPat1StashGo d handler fuel (some a) rest (pos + 1) segs
        (a :: res.1, res.2)
    else
      let res := applyPat1StashGo d handler fuel (some a) rest (pos + 1) segs
      (a :: res.1, res.2)

/-- The stashing single-delimiter pass over a whole text. -/
def applyPat1Stash (d : Char) (handler : Str → Nat → Nat → Str) (s : Str)
    (segs : List Str) : Str × List Str :=
  applyPat1StashGo d handler (s.length + 1) none s 0 segs

/-- The `[label](target)` body matcher shared by `LINK_RE` and `IMAGE_RE`
(text_renderer.py:64-65), applied to the text after the opening bracket: a
label of non-`]` characters (allowed to be empty only for images), then `](`,
then a non-empty target of non-`)` characters, then `)`. -/
def linkAt (s : Str) (labelMayBeEmpty : Bool) : Option (Str × Str × Str) :=
  let label := s.takeWhile (fun c => c ≠ ']')
  if label = [] ∧ ¬ labelMayBeEmpty then none
  else
    match s.drop label.length with
    | ']' :: '(' :: rest =>
      let target := rest.takeWhile (fun c => c ≠ ')')
      if target = [] then none
      else
        match rest.drop target.length with
        | ')' :: after => some (label, target, after)
        | _ => none
    | _ => none

theorem linkAt_length (s : Str) (b : Bool) (label target after : Str)
    (h : linkAt s b = some (label, target, after)) : after.length < s.length := by
  simp only [linkAt] at h
  have hlab := takeWhile_length_le (fun c => decide (c ≠ ']')) s
  split at h
  · exact absurd h (by simp)
  · split at h
    case _ rest heq =>
      have hdl := congrArg List.length heq
      simp only [List.length_drop, List.length_cons] at hdl
      have htar := takeWhile_length_le (fun c => decide (c ≠ ')')) rest
      split at h
      · exact absurd h (by simp)
      · split at h
        case _ after' heq2 =>
          have hd2 := congrArg List.length heq2
          simp only [List.length_drop, List.length_cons] at hd2
          simp only [Option.some.injEq, Prod.mk.injEq] at h
          obtain ⟨_, _, h3⟩ := h
          subst h3
          omega
        case _ => exact absurd h (by simp)
    case _ => exact absurd h (by simp)

/-- `LINK_RE.sub(self._handle_link, text)` (text_renderer.py:648 together with
`_handle_link`, 786-790): leftmost scan for `[label](target)` with the
`(?<!\!)` lookbehind, replacing each match by `[label](<index>)` and
registering the url.  `prv` is the character before the scan point.  Fuelled
like the other passes. -/
def linksGo : Nat → Option Char → Str → LinkState → Str × LinkState
  | 0, _, s, st => (s, st)
  | _ + 1, _, [], st => ([], st)
  | fuel + 1, prv, '[' :: rest, st =>
    if prv = some '!' then
      let res := linksGo fuel (some '[') rest st
      ('[' :: res.1, res.2)
    else
      match linkAt rest false with
      | some (label, target, after) =>
        let url := (splitLinkTarget target).1
        let reg := registerLink st url
        let repl := '[' :: label ++ ']' :: '(' :: (toString reg.1).toList ++ [')']
        let res := linksGo fuel (some ')') after reg.2
        (repl ++ res.1, res.2)
      | none =>
        let res := linksGo fuel (some '[') rest st
        ('[' :: res.1, res.2)
  | fuel + 1, _, c :: rest, st =>
    let res := linksGo fuel (some c) rest st
    (c :: res.1, res.2)

/-- `IMAGE_RE.sub(self._handle_image, text)` (text_renderer.py:649 together
with `_handle_image`, 792-797): `![alt](target)` becomes
`[Image: <alt-or-"Image">](<index>)`. -/
def imagesGo : Nat → Str → LinkState → Str × LinkState
  | 0, s, st => (s, st)
  | _ + 1, [], st => ([], st)
  | fuel + 1, '!' :: '[' :: rest, st =>
    match linkAt rest true with
    | some (alt, target, after) =>
      let url := (splitLinkTarget target).1
      let displayText := if alt = [] then "Image".toList else alt
      let reg := registerLink st url
      let repl := "[Image: ".toList ++ displayText ++ "](".toList ++
        (toString reg.1).toList ++ [')']
      let res := imagesGo fuel after reg.2
      (repl ++ res.1, res.2)
    | none =>
      let res := imagesGo fuel ('[' :: rest) st
      ('!' :: res.1, res.2)
  | fuel + 1, c :: rest, st =>
    let res := imagesGo fuel rest st
    (c :: res.1, res.2)

/-- Python `str.replace(old, new)`: leftmost, non-overlapping.  The sources
only call it with the non-empty placeholder strings as `old`; for an empty
`old` the model returns `s` unchanged.  Fuelled (each step consumes at least
one character of `s` when `old` is non-empty). -/
def replaceAllGo (old new : Str) : Nat → Str → Str
  | 0, s => s
  | _ + 1, [] => []
  | fuel + 1, c :: rest =>
    if old.isPrefixOf (c :: rest) then
      new ++ replaceAllGo old new fuel ((c :: rest).drop old.length)
    else c :: replaceAllGo old new fuel rest

/-- Python `str.replace(old, new)` over a whole text. -/
def replaceAll (s old new : Str) : Str :=
  if old = [] then s else replaceAllGo old new (s.length + 1) s

/-- The code-span stash of `_process_inline` (text_renderer.py:599-606):
replace each `CODE_STASH_RE` backtick span by its placeholder, collecting the
spans in order.  Fuelled like the other passes. -/
def stashCodeGo : Nat → Str → Nat → Str × List Str
  | 0, s, _ => (s, [])
  | _ + 1, [], _ => ([], [])
  | fuel + 1, '`' :: rest, k =>
    match rest.dropWhile (fun c => c ≠ '`') with
    | '`' :: rest' =>
      let content := rest.takeWhile (fun c => c ≠ '`')
      let res := stashCodeGo fuel rest' (k + 1)
      (codePlaceholder k ++ res.1, ('`' :: content ++ ['`']) :: res.2)
    | _ => ('`' :: rest, [])
  | fuel + 1, c :: rest, k =>
    let res := stashCodeGo fuel rest k
    (c :: res.1, res.2)

/-- The code-span stash over a whole text. -/
def stashCode (s : Str) : Str × List Str :=
  stashCodeGo (s.length + 1) s 0

/-- `TextRenderer._process_inline` (text_renderer.py:599-659), threading the
link registry through the link/image substitutions.  The processing order is
that of the source: stash code spans, strikethrough, bold, italic,
underline-strong (stashed), underline-em (stashed), links, images, restore
the emphasis placeholders, restore the code placeholders. -/
def processInline (reg : LinkState) (text : Str) : Str × LinkState :=
  let stash := stashCode text
  let codeSegments := stash.2
  let t1 := applyPat2 '~'
    (fun content _ _ => stylizeDelimited content '-' "preserve" 2) stash.1
  let t2 := applyPat2 '*'
    (fun content s e => replaceSpacedEmphasis t1 content s e "upper") t1
  let t3 := applyPat1 '*'
    (fun content s e => replaceSpacedEmphasis t2 content s e "preserve") t2
  let strong := applyPat2Stash '_'
    (fun content s e => applyEmphasisSpacing t3 s e (stylizeDelimited content '_' "upper" 3))
    t3 []
  let em := applyPat1Stash '_'
    (fun content s e =>
      applyEmphasisSpacing strong.1 s e (stylizeDelimited content '_' "preserve" 3))
    strong.1 strong.2
  let links := linksGo (em.1.length + 1) none em.1 reg
  let imgs := imagesGo (links.1.length + 1) links.1 links.2
  let t8 := (em.2.enum).foldl (fun t p => replaceAll t (empPlaceholder p.1) p.2) imgs.1
  let t9 := (codeSegments.enum).foldl (fun t p => replaceAll t (codePlaceholder p.1) p.2) t8
  (t9, imgs.2)

/-! ### Hyphenation-aware wrapping (`_wrap_text_hyphenated`) -/

/-- The letter class `[A-Za-zÀ-ÖØ-öø-ÿ'’]` of `_hyphenate_token`. -/
def hyphWordChar (c : Char) : Bool :=
  decide (('A' ≤ c ∧ c ≤ 'Z') ∨ ('a' ≤ c ∧ c ≤ 'z') ∨ ('À' ≤ c ∧ c ≤ 'Ö') ∨
    ('Ø' ≤ c ∧ c ≤ 'ö') ∨ ('ø' ≤ c ∧ c ≤ 'ÿ') ∨ c = '\'' ∨ c = '’')

/-- The letter core a token would be hyphenated on: the single maximal run of
word characters after the leading punctuation. -/
def letterCore (token : Str) : Str :=
  (token.dropWhile (fun c => !hyphWordChar c)).takeWhile hyphWordChar

/-- `TextRenderer._hyphenate_token` (text_renderer.py:975-995).  The anchored
regex `^([^w]*)([w]+)([^w]*)$` (`w` the letter class above) either splits the
token into leading punctuation, a word core and trailing punctuation, or
fails: it fails exactly when the token has no word character or more than one
word-character run.  `hyph` is the dictionary capability (`hyphenate_word`);
PyHyphen and the pyphen wrapper both return a list of parts, so the
`isinstance(parts, str)` branch of the source is not modelled. -/
def hyphenateToken (hyph : String → List String) (token : Str) : Option (List Str) :=
  let leading := token.takeWhile (fun c => !hyphWordChar c)
  let rest := token.drop leading.length
  let word := rest.takeWhile hyphWordChar
  let trailing := rest.drop word.length
  if word = [] ∨ trailing.any hyphWordChar then none
  else if word.length ≤ 4 then none
  else
    let parts := hyph (String.mk word)
    if parts = [] then none
    else
      let segments := (parts.map String.toList).filter (fun s => s ≠ [])
      if segments.length < 2 then none
      else
        match segments with
        | [] => none
        | s0 :: srest =>
          let withLead := (leading ++ s0) :: srest
          some (withLead.set (withLead.length - 1) (withLead.getLastD [] ++ trailing))

/-- The `split_index` scan of `_wrap_text_hyphenated` (text_renderer.py:914-922):
walk the boundaries `idx = 1, 2, ...`, remember the last one whose prefix plus
a trailing hyphen still fits, stop at the first that does not. -/
def splitIndexAux (width curLen : Nat) : List Nat → Nat → Nat → Option Nat → Option Nat
  | [], _, _, best => best
  | l :: ls, idx, running, best =>
    let running' := running + l
    if curLen + running' + 1 ≤ width then
      splitIndexAux width curLen ls (idx + 1) running' (some idx)
    else best

/-- `split_index` over the boundaries `1 .. len(segments) - 1`. -/
def splitIndex (width curLen : Nat) (segments : List Str) : Option Nat :=
  splitIndexAux width curLen (segments.dropLast.map List.length) 1 0 none

/-- The mutable locals of `_wrap_text_hyphenated`: the emitted `lines`,
`current_indent` and `current_line`.  The source also tracks `current_len`,
which always equals `len(current_line)` and is therefore not duplicated. -/
structure WrapSt where
  lines : List Str
  indent : Str
  line : Str

/-- The flush-and-reset step `lines.append(current_line.rstrip());
current_indent = current_line = subsequent_indent`. -/
def wrapFlush (st : WrapSt) (subsequent : Str) : WrapSt :=
  { lines := st.lines ++ [pyRstrip st.line], indent := subsequent, line := subsequent }

/-- The inner `while segments:` loop of `_wrap_text_hyphenated`
(text_renderer.py:898-952).  The source loop need not terminate (for example
when the subsequent indent leaves no room at all), so the model is fuelled:
`none` means the fuel ran out where the source would still be looping. -/
def hyphSegsLoop (width : Nat) (subsequent : Str) :
    Nat → List Str → WrapSt → Option WrapSt
  | 0, _, _ => none
  | _ + 1, [], st => some st
  | fuel + 1, seg :: rest, st =>
    if width ≤ st.line.length + 1 then
      hyphSegsLoop width subsequent fuel (seg :: rest) (wrapFlush st subsequent)
    else
      let joined := ((seg :: rest).map List.length).sum
      if st.line.length + joined ≤ width then
        some { st with line := st.line ++ (seg :: rest).flatten }
      else
        match splitIndex width st.line.length (seg :: rest) with
        | none =>
          let forceSplit := min seg.length (width - st.line.length - 1)
          if forceSplit = 0 then
            hyphSegsLoop width subsequent fuel (seg :: rest) (wrapFlush st subsequent)
          else
            let head := seg.take forceSplit ++ ['-']
            let tail := seg.drop forceSplit
            let st' := wrapFlush { st with line := st.line ++ head } subsequent
            let segments' := if tail = [] then rest else tail :: rest
            hyphSegsLoop width subsequent fuel segments' st'
        | some k =>
          let consumed := (seg :: rest).take k
          let st' := wrapFlush { st with line := st.line ++ consumed.flatten ++ ['-'] }
            subsequent
          hyphSegsLoop width subsequent fuel ((seg :: rest).drop k) st'

/-- Python `self._hyphenate_token(token) or [token]` (`None` and `[]` falsy). -/
def pyOrList (o : Option (List Str)) (dflt : List Str) : List Str :=
  match o with
  | some (x :: xs) => x :: xs
  | _ => dflt

/-- The token loop of `_wrap_text_hyphenated` (text_renderer.py:884-952).
Tokens are never empty (see `splitRuns` below), so the `token == ""` skip of
the source has no counterpart. -/
def hyphTokens (hyph : String → List String) (width : Nat) (subsequent : Str)
    (fuel : Nat) : List Str → WrapSt → Option WrapSt
  | [], st => some st
  | tok :: toks, st =>
    if pyIsSpace tok then
      if width < st.line.length + tok.length ∧ st.indent.length < st.line.length then
        hyphTokens hyph width subsequent fuel toks (wrapFlush st subsequent)
      else
        hyphTokens hyph width subsequent fuel toks { st with line := st.line ++ tok }
    else
      let segments := pyOrList (hyphenateToken hyph tok) [tok]
      match hyphSegsLoop width subsequent fuel segments st with
      | none => none
      | some st' => hyphTokens hyph width subsequent fuel toks st'

/-- `re.split(r"(\s+)", text)` without the empty boundary strings (which the
source token loop skips anyway): the maximal runs of whitespace and
non-whitespace characters, in order.  Fuelled (each run is non-empty, so the
`l.length + 1` fuel of the wrapper always suffices). -/
def splitRunsGo : Nat → Str → List Str
  | 0, _ => []
  | _ + 1, [] => []
  | fuel + 1, c :: cs =>
    (c :: cs.takeWhile (fun d => d.isWhitespace = c.isWhitespace)) ::
      splitRunsGo fuel (cs.dropWhile (fun d => d.isWhitespace = c.isWhitespace))

/-- The whitespace/word run split of a whole text. -/
def splitRuns (l : Str) : List Str := splitRunsGo (l.length + 1) l

/-- `TextRenderer._wrap_text_hyphenated` (text_renderer.py:870-973).  `width`
is the document width `self.width`, `availableWidth` the wrap width computed
by `_wrap_text`; the trailing alignment pass recomputes the margins from the
style exactly as the source does (`alignWrapped`).  Fuelled: `none` when the
fuel ran out where the source would still be looping. -/
def wrapTextHyphenated (hyph : String → List String) (fuel width : Nat)
    (text initialIndent subsequentIndent : Str) (style : BlockStyle)
    (availableWidth : Nat) : Option (List Str) :=
  match hyphTokens hyph availableWidth subsequentIndent fuel (splitRuns text)
      ⟨[], initialIndent, initialIndent⟩ with
  | none => none
  | some st =>
    let lines := if pyStrip st.line ≠ [] then st.lines ++ [pyRstrip st.line] else st.lines
    let lines' := if lines = [] then [pyRstrip initialIndent] else lines
    some (alignWrapped width style lines')

/-! ### The plain (textwrap-based) wrap -/

/-- The greedy chunk-taking step of a single wrapped line: take chunks while
`cur_len + len(chunk) <= lineWidth`. -/
def greedyTake (lineWidth : Int) : List Str → Int → List Str × List Str
  | [], _ => ([], [])
  | c :: cs, curLen =>
    if curLen + c.length ≤ lineWidth then
      let res := greedyTake lineWidth cs (curLen + c.length)
      (c :: res.1, res.2)
    else ([], c :: cs)

/-- Modelled from the spec: the non-hyphenated branch of `_wrap_text` calls
Python `textwrap.TextWrapper` (standard library, not part of src/) with
`drop_whitespace=False`, `replace_whitespace=False`, `break_on_hyphens=False`
and `break_long_words=True`.  Per the spec this is a greedy word-wrap over
alternating whitespace/word chunks that does not collapse whitespace and
force-breaks a word longer than the line width; each produced line is the
indent (initial for the first line, subsequent afterwards) followed by its
chunks.  Fuelled by the input length (every iteration consumes input). -/
def wrapPlainGo (width : Nat) (initialIndent subsequentIndent : Str) :
    Nat → List Str → Bool → List Str
  | 0, _, _ => []
  | _ + 1, [], _ => []
  | fuel + 1, chunks, isFirst =>
    let indent := if isFirst then initialIndent else subsequentIndent
    let lineWidth : Int := (width : Int) - indent.length
    let t := greedyTake lineWidth chunks 0
    let curLen : Int := ((t.1.map List.length).sum : Nat)
    let next :=
      match t.2 with
      | c :: cs =>
        if lineWidth < c.length then
          let spaceLeft : Nat := if lineWidth < 1 then 1 else (lineWidth - curLen).toNat
          (t.1 ++ [c.take spaceLeft], c.drop spaceLeft :: cs)
        else (t.1, t.2)
      | [] => (t.1, ([] : List Str))
    if next.1 = [] then []
    else (indent ++ next.1.flatten) ::
      wrapPlainGo width initialIndent subsequentIndent fuel next.2 false

/-- Modelled from the spec: `textwrap.TextWrapper(...).wrap(text)` as used by
`_wrap_text` (text_renderer.py:841-851). -/
def wrapPlainRaw (availableWidth : Nat) (initialIndent subsequentIndent : Str)
    (text : Str) : List Str :=
  wrapPlainGo availableWidth initialIndent subsequentIndent (text.length + 1)
    (splitRuns text) true

/-! ### The renderer -/

/-- `FrontMatter` (models.py): the flat configuration record.  Integer fields
are Python `int`s; the renderer clamps each with `max(0, ...)` on ingestion. -/
structure FrontMatter where
  h1_font : String := "small"
  h2_font : String := "caps"
  h3_font : String := "title"
  margin_left : Int := 2
  margin_right : Int := 2
  paragraph_spacing : Int := 2
  hyphenate : Bool := false
  hyphen_lang : String := "en_US"
  figlet_fallback : Bool := false
  header_spacing : Int := 2
  wrap_code_blocks : Bool := false
  code_block_wrap_indent : Int := 2
  code_block_line_numbers : Bool := true
  blockquote_bars : Bool := true
  list_marker_indent : Int := 0
  list_text_spacing : Int := 1
  links_per_block : Bool := false

/-- `BlockRecord` (text_renderer.py:68-73): the window and re-render closure
of the single most recent stylable block. -/
structure BlockRecord where
  start : Nat
  length : Nat
  render : BlockStyle → List Str
  style : BlockStyle

/-- The `TextRenderer` object state (text_renderer.py:76-122).  `linkReg`
bundles `self.links`/`self.link_indices`; `hyphenator` is the initialised
dictionary capability (`hyphenate_word`) or `None`. -/
structure RendererState where
  width : Nat
  frontmatter : FrontMatter
  linkReg : LinkState
  output : List Str
  paragraphSpacing : Nat
  hyphenate : Bool
  hyphenLang : String
  figletFallback : Bool
  headerSpacing : Nat
  wrapCodeBlocks : Bool
  codeBlockLineNumbers : Bool
  blockquoteBars : Bool
  wrapCodeBlocksIndent : Nat
  listMarkerIndent : Nat
  listTextSpacing : Nat
  baseStyle : BlockStyle
  lastStylable : Option BlockRecord
  hyphenator : Option (String → List String)

/-- The fuel handed to the fuelled hyphenation loop by the renderer: large
enough for every terminating source run on the given text. -/
def hyphFuel (text : Str) : Nat := 4 * text.length + 64

/-- `TextRenderer._wrap_text` (text_renderer.py:819-868).  The hyphenated
branch is the fuelled `wrapTextHyphenated`; `getD []` is only reachable on
inputs where the source itself would loop forever. -/
def wrapText (st : RendererState) (text : Str) (initialIndent : Str)
    (subsequentIndent : Option Str) (style : BlockStyle) (hyphenate : Bool) :
    List Str :=
  let m := margins st.width style
  let subsequent := subsequentIndent.getD initialIndent
  match hyphenate, st.hyphenator with
  | true, some h =>
    (wrapTextHyphenated h (hyphFuel text) st.width text initialIndent subsequent
      style m.2.2).getD []
  | _, _ =>
    let wrapped := wrapPlainRaw m.2.2 initialIndent subsequent text
    let wrapped' := if wrapped = [] then [pyRstrip initialIndent] else wrapped
    wrapped'.map (alignOne st.width style m.1 m.2.2)

/-- `TextRenderer._emit_block` (text_renderer.py:383-398). -/
def emitBlock (st : RendererState) (lines : List Str) (stylable : Bool)
    (renderFn : Option (BlockStyle → List Str)) (style : Option BlockStyle) :
    RendererState :=
  if lines = [] then st
  else
    let start := st.output.length
    let st' := { st with output := st.output ++ lines }
    match stylable, renderFn, style with
    | true, some f, some sty =>
      { st' with lastStylable := some ⟨start, lines.length, f, sty⟩ }
    | _, _, _ => { st' with lastStylable := none }

/-- `TextRenderer._emit_render` (text_renderer.py:369-381). -/
def emitRender (st : RendererState) (renderFn : BlockStyle → List Str)
    (style : BlockStyle) (stylable : Bool) : RendererState :=
  emitBlock st (renderFn style) stylable (if stylable then some renderFn else none)
    (if stylable then some style else none)

/-- `TextRenderer._apply_style_to_last_block` (text_renderer.py:400-409). -/
def applyStyleToLastBlock (st : RendererState) (spec : StyleSpec) : RendererState :=
  match st.lastStylable with
  | none => st
  | some r =>
    let newStyle := combineStyles r.style (some spec)
    let newLines := r.render newStyle
    { st with
      output := st.output.take r.start ++ newLines ++ st.output.drop (r.start + r.length)
      lastStylable := some ⟨r.start, newLines.length, r.render, newStyle⟩ }

/-- `TextRenderer._wrap_emit` (text_renderer.py:344-367). -/
def wrapEmit (st : RendererState) (text : Str) (style : BlockStyle)
    (initialIndent : Str) (subsequentIndent : Option Str) (hyphenate : Bool)
    (stylable : Bool) : RendererState :=
  if text = [] then st
  else
    emitRender st
      (fun targetStyle => wrapText st text initialIndent subsequentIndent
        targetStyle hyphenate)
      style stylable

/-! ### Code blocks -/

/-- `TextRenderer._leading_space_count` (text_renderer.py:588-597): leading
spaces and tabs. -/
def leadingSpaceCount (text : Str) : Nat :=
  (text.takeWhile (fun c => c = ' ' ∨ c = '\t')).length

/-- The `break_pos` scan of `_split_code_segment` (text_renderer.py:573-576):
the index of the last space/tab in the slice (`none` models `-1`). -/
def lastBreak : Str → Nat → Option Nat → Option Nat
  | [], _, best => best
  | c :: cs, i, best =>
    lastBreak cs (i + 1) (if c = ' ' ∨ c = '\t' then some i else best)

theorem lastBreak_lt :
    ∀ (cs : Str) (i : Nat) (best : Option Nat),
      (∀ k, best = some k → k < i) →
      ∀ k, lastBreak cs i best = some k → k < i + cs.length := by
  intro cs
  induction cs with
  | nil =>
    intro i best hb k h
    simp only [lastBreak] at h
    have := hb k h
    omega
  | cons c cs ih =>
    intro i best hb k h
    simp only [lastBreak] at h
    have hstep : ∀ m, (if c = ' ' ∨ c = '\t' then some i else best) = some m → m < i + 1 := by
      intro m hm
      split at hm
      · cases hm; omega
      · have := hb m hm; omega
    have := ih (i + 1) _ hstep k h
    simp only [List.length_cons]
    omega

/-- `TextRenderer._split_code_segment` (text_renderer.py:567-586). -/
def splitCodeSegment (text : Str) (maxWidth : Nat) : Str × Str :=
  let maxWidth := if maxWidth = 0 then 1 else maxWidth
  if text.length ≤ maxWidth then (text, [])
  else
    let sliceText := text.take maxWidth
    let pr :=
      match lastBreak sliceText 0 none with
      | none => (sliceText, text.drop sliceText.length)
      | some 0 => (sliceText, text.drop sliceText.length)
      | some bp => (text.take bp, text.drop bp)
    if pr.1 = [] then (sliceText, text.drop sliceText.length) else pr

theorem splitCodeSegment_snd_length (text : Str) (w : Nat) (h : text ≠ []) :
    (splitCodeSegment text w).2.length < text.length := by
  have htext : 1 ≤ text.length := List.length_pos.mpr h
  simp only [splitCodeSegment]
  set m := if w = 0 then 1 else w with hmdef
  have hm : 1 ≤ m := by rw [hmdef]; split <;> omega
  by_cases hle : text.length ≤ m
  · simp only [if_pos hle]
    simpa using htext
  · simp only [if_neg hle]
    have hslice : (text.take m).length = m := by
      simp only [List.length_take]; omega
    cases hlb : lastBreak (text.take m) 0 none with
    | none =>
      simp only [hlb]
      split <;> simp only [List.length_drop, hslice] <;> omega
    | some bp =>
      have hbp : bp < m := by
        have := lastBreak_lt (text.take m) 0 none (by intro k hk; cases hk) bp hlb
        simpa [hslice] using this
      match bp, hbp with
      | 0, _ =>
        split <;> simp only [List.length_drop, hslice] <;> omega
      | bp' + 1, hbp =>
        split
        · simp only [List.length_drop, hslice]; omega
        · simp only [List.length_drop]; omega

/-- The `while remaining:` loop of `_wrap_code_line_segments`
(text_renderer.py:557-565). -/
def wrapCodeSegsGo (wrapIndent contentWidth maxIndentAllowed : Nat) :
    Str → Nat → List Str
  | remaining, currentIndent =>
    if h : remaining = [] then []
    else
      let available := max 1 (contentWidth - currentIndent)
      let pr := splitCodeSegment remaining available
      let leading := leadingSpaceCount pr.1
      let nextIndent := min maxIndentAllowed (currentIndent + leading + wrapIndent)
      (spaces currentIndent ++ pr.1) ::
        wrapCodeSegsGo wrapIndent contentWidth maxIndentAllowed pr.2 nextIndent
termination_by remaining _ => remaining.length
decreasing_by
  exact splitCodeSegment_snd_length _ _ h

/-- `TextRenderer._wrap_code_line_segments` (text_renderer.py:550-565). -/
def wrapCodeLineSegments (wrapIndent contentWidth : Nat) (line : Str) : List Str :=
  if line = [] then []
  else wrapCodeSegsGo wrapIndent contentWidth (contentWidth - 1) line 0

/-- Python `"{:0Nd}".format(idx)`. -/
def zeroPad (n : Nat) (idx : Nat) : Str :=
  let digits := (toString idx).toList
  List.replicate (n - digits.length) '0' ++ digits

/-- `TextRenderer._format_code_block` (text_renderer.py:512-548). -/
def formatCodeBlock (st : RendererState) (lines : List Str) (style : BlockStyle) :
    List Str :=
  if lines = [] then []
  else
    let m := margins st.width style
    let indent := spaces m.1
    let numbered := st.codeBlockLineNumbers
    let wrapped := st.wrapCodeBlocks
    let numWidth := max 2 (toString lines.length).length
    let contPfx := if numbered then indent ++ spaces numWidth ++ " | ".toList
      else indent ++ "   ".toList
    let contentWidth := if numbered then max 1 (m.2.2 - (numWidth + 3))
      else max 1 (m.2.2 - 3)
    let lead (idx : Nat) : Str :=
      if numbered then indent ++ zeroPad numWidth idx ++ " | ".toList else contPfx
    let fmtLine (idx : Nat) (line : Str) : List Str :=
      let segments :=
        if wrapped ∧ line ≠ [] then
          wrapCodeLineSegments st.wrapCodeBlocksIndent contentWidth line
        else if line ≠ [] then [line]
        else []
      match segments with
      | [] => [lead idx]
      | s0 :: srest => (lead idx ++ s0) :: srest.map (fun seg => contPfx ++ seg)
    (lines.enum.map (fun p => fmtLine (p.1 + 1) p.2)).flatten ++ [indent]

/-! ### Horizontal rules and headings -/

/-- `TextRenderer._render_horizontal_rule_line` (text_renderer.py:507-510). -/
def horizontalRuleLine (width : Nat) (style : BlockStyle) : Str :=
  let m := margins width style
  spaces m.1 ++ List.replicate m.2.2 '-'

/-- Python `str.capitalize()`. -/
def pyCapitalize (w : Str) : Str :=
  match w with
  | [] => []
  | c :: cs => c.toUpper :: cs.map Char.toLower

/-- `string.capwords` as used by `_to_title_case` (text_renderer.py:504-505). -/
def capwords (s : Str) : Str :=
  List.intercalate [' ']
    (((splitRuns s).filter (fun t => !pyIsSpace t)).map pyCapitalize)

/-- `TextRenderer._render_h4_plus` (text_renderer.py:483-502). -/
def renderH4Plus (st : RendererState) (text : Str) (style : BlockStyle)
    (transform : String) : List Str :=
  let processed :=
    if transform = "title" then capwords text
    else if transform = "caps" then text.map Char.toUpper
    else text
  let wrapped := wrapText st processed [] none style false
  let out := wrapped.foldl
    (fun acc line =>
      let line := pyRstrip line
      if pyStrip line = [] then acc ++ [[]]
      else
        let body := line.dropWhile (fun c => c = ' ')
        let leading := line.length - body.length
        acc ++ [line, spaces leading ++ List.replicate body.length '-'])
    []
  out ++ [[]]

/-- The per-level heading font `getattr(self.frontmatter, f"h{level}_font",
"standard")` (text_renderer.py:425): `FrontMatter` only has fonts for levels
1-3, so deeper levels fall back to `"standard"`. -/
def headingFont (fm : FrontMatter) (level : Nat) : String :=
  if level = 1 then fm.h1_font
  else if level = 2 then fm.h2_font
  else if level = 3 then fm.h3_font
  else "standard"

/-- `TextRenderer._render_heading_lines` (text_renderer.py:424-433), modelled
with the banner-font capability absent (pyfiglet is not part of src/):
`_render_figlet_heading` then returns `None` and every heading takes the
`_render_h4_plus` fallback, with the `caps`/`title` font keywords selecting
the transform and everything else defaulting to `caps`. -/
def renderHeadingLines (st : RendererState) (level : Nat) (text : Str)
    (style : BlockStyle) : List Str :=
  let styleKey := pyLowerStr (headingFont st.frontmatter level)
  if styleKey = "caps" ∨ styleKey = "title" then renderH4Plus st text style styleKey
  else renderH4Plus st text style "caps"

/-- `TextRenderer._ensure_header_spacing` (text_renderer.py:1000-1011): top up
the trailing blank lines to the configured header spacing. -/
def ensureHeaderSpacing (st : RendererState) : RendererState :=
  if st.headerSpacing = 0 then st
  else
    let trailing := (st.output.reverse.takeWhile (fun l => pyStrip l = [])).length
    if st.headerSpacing ≤ trailing then st
    else { st with output := st.output ++ List.replicate (st.headerSpacing - trailing) [] }

/-! ### ASCII-art layout -/

/-- `AsciiArtPiece` (models.py). -/
structure AsciiArtPiece where
  block_type : String := ""
  name : String := ""
  path : String := ""
  lines : List Str := []
  align : Option String := none
deriving DecidableEq

/-- `line.rstrip("\n")`. -/
def dropTrailNewlines (s : Str) : Str :=
  (s.reverse.dropWhile (fun c => c = '\n')).reverse

/-- `TextRenderer._ascii_piece_width` (text_renderer.py:310-311):
`max(visible line length, default=0)`. -/
def asciiPieceWidth (lines : List Str) : Nat :=
  (lines.map (fun l => (dropTrailNewlines l).length)).foldl max 0

/-- The alignment group a piece lands in: `groups.get((piece.align or
"left").lower(), groups["left"])` (text_renderer.py:261-263) — anything other
than exactly `"center"`/`"right"` (e.g. `"centre"`) goes to the left group. -/
def asciiGroupOf (a : Option String) : String :=
  let n := pyLowerStr (pyOrStr a "left")
  if n = "center" ∨ n = "right" then n else "left"

/-- `TextRenderer._compute_ascii_positions` (text_renderer.py:247-308):
place the left group left-to-right from column 0 with a 4-column gap, the
right group right-to-left from the far edge, the first center piece at the
true center and later center pieces from the left cursor; then abort
(`none`) if any two placed intervals overlap.  Every piece is placed, so the
`index not in placement_map` guards of the source are vacuous. -/
def computeAsciiPositions (pieces : List AsciiArtPiece) (widths : List Nat)
    (availableWidth : Nat) : Option (List (AsciiArtPiece × Nat × Nat)) :=
  if availableWidth = 0 then none
  else
    let gap := 4
    let idxPieces := pieces.enum
    let leftIdx := (idxPieces.filter (fun p => asciiGroupOf p.2.align = "left")).map (·.1)
    let centerIdx := (idxPieces.filter (fun p => asciiGroupOf p.2.align = "center")).map (·.1)
    let rightIdx := (idxPieces.filter (fun p => asciiGroupOf p.2.align = "right")).map (·.1)
    let widthOf (i : Nat) : Nat := min (widths.getD i 0) availableWidth
    let leftPass := leftIdx.foldl
      (fun (acc : Nat × List (Nat × Nat × Nat)) i =>
        let w := widthOf i
        (min availableWidth (acc.1 + w + gap), acc.2 ++ [(i, acc.1, w)]))
      (0, [])
    let rightPass := rightIdx.reverse.foldl
      (fun (acc : Nat × List (Nat × Nat × Nat)) i =>
        let w := widthOf i
        let pos := acc.1 - w
        (pos - gap, acc.2 ++ [(i, pos, w)]))
      (availableWidth, [])
    let centerPass := centerIdx.foldl
      (fun (acc : Bool × Nat × List (Nat × Nat × Nat)) i =>
        let w := widthOf i
        if acc.1 then
          (true, min availableWidth (acc.2.1 + w + gap), acc.2.2 ++ [(i, acc.2.1, w)])
        else
          (true, acc.2.1, acc.2.2 ++ [(i, (availableWidth - w) / 2, w)]))
      (false, leftPass.1, [])
    let placements := leftPass.2 ++ rightPass.2 ++ centerPass.2.2
    let placeOf (i : Nat) : Option (Nat × Nat) :=
      (placements.find? (fun t => t.1 = i)).map (·.2)
    let n := pieces.length
    let overlap := (List.range n).any (fun i =>
      match placeOf i with
      | none => false
      | some pw =>
        ((List.range n).filter (fun j => i < j)).any (fun j =>
          match placeOf j with
          | none => false
          | some qw =>
            decide ((pw.1 ≤ qw.1 ∧ qw.1 < pw.1 + pw.2) ∨
              (qw.1 ≤ pw.1 ∧ pw.1 < qw.1 + qw.2))))
    if overlap then none
    else some (idxPieces.filterMap
      (fun p => (placeOf p.1).map (fun pw => (p.2, pw.1, pw.2))))

/-- `TextRenderer._align_preformatted_lines` (text_renderer.py:313-335). -/
def alignPreformattedLines (width : Nat) (style : BlockStyle) (lines : List Str)
    (explicitAlign : Option String) : List Str :=
  if lines = [] then []
  else
    let m := margins width style
    let processed := lines.map dropTrailNewlines
    let blockWidth := (processed.map List.length).foldl max 0
    let extraSpace := m.2.2 - blockWidth
    let align := pyLowerStr (pyOrStr explicitAlign (pyOrS style.align "left"))
    let alignOffset :=
      if align = "center" ∨ align = "centre" then extraSpace / 2
      else if align = "right" then extraSpace
      else 0
    let indent := min (m.1 + alignOffset) (width - blockWidth)
    processed.map (fun l => spaces indent ++ l)

/-- The inner character-painting loop of the canvas compositor
(text_renderer.py:235-242): paint the non-space characters of `line` onto
`row` starting at `target`, silently dropping columns past the width. -/
def paintRow (availableWidth : Nat) : Str → Nat → Str → Str
  | row, _, [] => row
  | row, target, c :: cs =>
    if availableWidth ≤ target then row
    else
      paintRow availableWidth (if c = ' ' then row else row.set target c) (target + 1) cs

/-- Paint one placed piece onto the canvas (text_renderer.py:230-242): row
`r` of the canvas receives row `r` of the piece, rows past the piece height
are untouched. -/
def paintPieceRows (availableWidth : Nat) (canvas : List Str)
    (piece : AsciiArtPiece) (pos : Nat) : List Str :=
  canvas.enum.map (fun p =>
    if p.1 < piece.lines.length then
      paintRow availableWidth p.2 pos (piece.lines.getD p.1 [])
    else p.2)

/-- `TextRenderer._layout_ascii_pieces` (text_renderer.py:208-245). -/
def layoutAsciiPieces (st : RendererState) (pieces : List AsciiArtPiece)
    (style : BlockStyle) : List Str :=
  match pieces with
  | [] => []
  | [piece] => alignPreformattedLines st.width style piece.lines piece.align
  | p0 :: p1 :: prest =>
    let pcs := p0 :: p1 :: prest
    let m := margins st.width style
    let maxHeight := (pcs.map (fun p => p.lines.length)).foldl max 0
    let widths := pcs.map (fun p => asciiPieceWidth p.lines)
    match computeAsciiPositions pcs widths m.2.2 with
    | none =>
      (pcs.map (fun piece =>
        alignPreformattedLines st.width style piece.lines piece.align)).flatten
    | some positions =>
      let canvas := List.replicate maxHeight (spaces m.2.2)
      let painted := positions.foldl
        (fun cv t => paintPieceRows m.2.2 cv t.1 t.2.1) canvas
      painted.map (fun row => spaces m.1 ++ pyRstrip row)

/-! ### Event dispatch -/

/-- `BlockKind` (models.py). -/
inductive BlockKind where
  | paragraph
  | heading
  | codeBlock
  | blockquote
  | listItem
  | horizontalRule
  | blankLine
  | customBlock
deriving Repr, DecidableEq

/-- The kind-specific event payloads (models.py).  The source stores them as
an untyped `payload: object` next to the kind; the parser always pairs a kind
with its own payload shape, which the sum type captures. -/
inductive BlockPayload where
  | paragraph (text : Str)
  | heading (level : Nat) (text : Str)
  | codeBlock (lines : List Str)
  | blockquote (depth : Nat) (text : Str)
  | listItem (indent : Str) (marker : Str) (spacing : Str) (text : Str) (ordered : Bool)
  | horizontalRule
  | blankLine
  | customBlock (pieces : List AsciiArtPiece)

/-- `BlockEvent` (models.py). -/
structure BlockEvent where
  kind : BlockKind
  payload : BlockPayload
  style : BlockStyle
  stylable : Bool := false

/-- A parser-emitted event: a block event or a `StyleUpdateEvent`. -/
inductive RenderEvent where
  | block (ev : BlockEvent)
  | styleUpdate (spec : StyleSpec)

/-- `TextRenderer._render_paragraph` (text_renderer.py:154-158). -/
def renderParagraph (st : RendererState) (text : Str) (style : BlockStyle) :
    RendererState :=
  let pr := processInline st.linkReg text
  let st1 := { st with linkReg := pr.2 }
  let st2 := wrapEmit st1 pr.1 style [] none st1.hyphenate true
  if 0 < st2.paragraphSpacing then
    { st2 with output := st2.output ++ List.replicate st2.paragraphSpacing [] }
  else st2

/-- `TextRenderer._render_heading` (text_renderer.py:160-163). -/
def renderHeading (st : RendererState) (level : Nat) (text : Str)
    (style : BlockStyle) : RendererState :=
  let st1 := ensureHeaderSpacing st
  emitRender st1 (renderHeadingLines st1 level text) style true

/-- `TextRenderer._render_code_block` (text_renderer.py:165-166). -/
def renderCodeBlock (st : RendererState) (lines : List Str) (style : BlockStyle) :
    RendererState :=
  emitRender st (formatCodeBlock st lines) style false

/-- `TextRenderer._render_blockquote` (text_renderer.py:168-178). -/
def renderBlockquote (st : RendererState) (depth : Nat) (text : Str)
    (style : BlockStyle) : RendererState :=
  let pr := processInline st.linkReg text
  let st1 := { st with linkReg := pr.2 }
  let indentUnit := if st1.blockquoteBars then " | ".toList else "   ".toList
  let indent := (List.replicate (max 1 depth) indentUnit).flatten
  wrapEmit st1 pr.1 style indent (some indent) st1.hyphenate false

/-- `TextRenderer._render_list_item` (text_renderer.py:180-194). -/
def renderListItem (st : RendererState) (indent marker : Str) (text : Str)
    (style : BlockStyle) : RendererState :=
  let baseIndent := indent.flatMap (fun c => if c = '\t' then "    ".toList else [c])
  let markerIndent := spaces st.listMarkerIndent
  let textSpacing := spaces st.listTextSpacing
  let initialIndent := baseIndent ++ markerIndent ++ marker ++ textSpacing
  let subsequentIndent := baseIndent ++ markerIndent ++ spaces marker.length ++ textSpacing
  let pr := processInline st.linkReg text
  let st1 := { st with linkReg := pr.2 }
  wrapEmit st1 pr.1 style initialIndent (some subsequentIndent) st1.hyphenate false

/-- `TextRenderer._render_horizontal_rule` (text_renderer.py:196-198). -/
def renderHorizontalRule (st : RendererState) (style : BlockStyle) : RendererState :=
  emitBlock st [horizontalRuleLine st.width style] false none none

/-- `TextRenderer._render_blank_line` (text_renderer.py:200-202): appends a
blank line directly (not through `_emit_block`, so the last stylable record
is untouched) and only when paragraph spacing is zero. -/
def renderBlankLine (st : RendererState) : RendererState :=
  if st.paragraphSpacing = 0 then { st with output := st.output ++ [[]] } else st

/-- `TextRenderer._render_custom_block` (text_renderer.py:204-206). -/
def renderCustomBlock (st : RendererState) (pieces : List AsciiArtPiece)
    (style : BlockStyle) : RendererState :=
  emitRender st (fun sty => layoutAsciiPieces st pieces sty) style true

/-- `TextRenderer._handle_block_event` (text_renderer.py:147-152): dispatch on
the block kind (every kind has a handler, so the record-clearing `else`
branch of the source is unreachable).  The payload shapes always match the
kind in parser-emitted events; a mismatched pairing is dispatched by payload
shape. -/
def handleBlockEvent (st : RendererState) (ev : BlockEvent) : RendererState :=
  match ev.payload with
  | .paragraph text => renderParagraph st text ev.style
  | .heading level text => renderHeading st level text ev.style
  | .codeBlock lines => renderCodeBlock st lines ev.style
  | .blockquote depth text => renderBlockquote st depth text ev.style
  | .listItem indent marker _spacing text _ordered =>
    renderListItem st indent marker text ev.style
  | .horizontalRule => renderHorizontalRule st ev.style
  | .blankLine => renderBlankLine st
  | .customBlock pieces => renderCustomBlock st pieces ev.style

/-- `TextRenderer.handle_event` (text_renderer.py:124-128). -/
def handleEvent (st : RendererState) (e : RenderEvent) : RendererState :=
  match e with
  | .block ev => handleBlockEvent st ev
  | .styleUpdate spec => applyStyleToLastBlock st spec

/-- `TextRenderer.finalize` (text_renderer.py:130-145): append the collected
link references, each wrapped at the base style. -/
def finalize (st : RendererState) : List Str :=
  if st.linkReg.links = [] then st.output
  else
    let out :=
      if st.output ≠ [] ∧ st.output.getLast? ≠ some [] then st.output ++ [[]]
      else st.output
    st.linkReg.links.foldl
      (fun acc p =>
        let entry := '[' :: (toString p.1).toList ++ "] ".toList ++ p.2
        acc ++ wrapText st entry [] (some []) st.baseStyle false)
      out

/-- `TextRenderer.__init__` (text_renderer.py:77-122).  The optional PyHyphen
capability is `hyphenCap`: `none` models `Hyphenator is None` (no hyphenation
library importable), otherwise it maps a language code to either an
initialised `hyphenate_word` function or an initialisation error (the
`except Exception` branch).  Quotes of the source error messages are
elided. -/
def mkTextRenderer (width : Nat) (fm : FrontMatter)
    (hyphenCap : Option (String → Except String (String → List String))) :
    Except String RendererState :=
  let hyphenLang := pyOrS fm.hyphen_lang "en_US"
  let mkSt (h : Option (String → List String)) : RendererState :=
    { width := width
      frontmatter := fm
      linkReg := {}
      output := []
      paragraphSpacing := intClamp fm.paragraph_spacing
      hyphenate := fm.hyphenate
      hyphenLang := hyphenLang
      figletFallback := fm.figlet_fallback
      headerSpacing := intClamp fm.header_spacing
      wrapCodeBlocks := fm.wrap_code_blocks
      codeBlockLineNumbers := fm.code_block_line_numbers
      blockquoteBars := fm.blockquote_bars
      wrapCodeBlocksIndent :=
        if fm.wrap_code_blocks then intClamp fm.code_block_wrap_indent else 0
      listMarkerIndent := intClamp fm.list_marker_indent
      listTextSpacing := intClamp fm.list_text_spacing
      baseStyle :=
        { align := "left"
          margin_left := intClamp fm.margin_left
          margin_right := intClamp fm.margin_right }
      lastStylable := none
      hyphenator := h }
  if fm.hyphenate then
    match hyphenCap with
    | none => .error "PyHyphen is required for hyphenation but is not installed."
    | some factory =>
      match factory hyphenLang with
      | .error exc =>
        .error ("Failed to initialise hyphenator for language " ++ hyphenLang ++ ": " ++ exc)
      | .ok h => .ok (mkSt (some h))
  else .ok (mkSt none)

/-- The renderer state built by `mkTextRenderer` for the default
configuration and no hyphenation capability — a concrete fixture used by
counterexamples and witnesses. -/
def plainRenderer (w : Nat) : RendererState :=
  { width := w, frontmatter := {}, linkReg := {}, output := [],
    paragraphSpacing := 2, hyphenate := false, hyphenLang := "en_US",
    figletFallback := false, headerSpacing := 2, wrapCodeBlocks := false,
    codeBlockLineNumbers := true, blockquoteBars := true, wrapCodeBlocksIndent := 0,
    listMarkerIndent := 0, listTextSpacing := 1,
    baseStyle := { align := "left", margin_left := 2, margin_right := 2 },
    lastStylable := none, hyphenator := none }

theorem mkTextRenderer_default (w : Nat) :
    mkTextRenderer w {} none = .ok (plainRenderer w) := rfl

/-! ### The parser paragraph flush -/

/-- The parser-side state touched by `_flush_paragraph`
(markdown_parser.py:33-39): the style stack (top last, as in the Python
list), the spec attached to the accumulating paragraph, the buffered pending
block spec, and the last-stylable flag. -/
structure ParserState where
  styleStack : List BlockStyle
  paragraphStyleSpec : Option StyleSpec := none
  pendingBlockStyleSpec : Option StyleSpec := none
  lastStylableBlock : Bool := false

/-- `MarkdownParser._current_style` (markdown_parser.py:306-307):
`self._style_stack[-1]`.  The stack is never empty in the source; the
default is unreachable. -/
def currentStyle (ps : ParserState) : BlockStyle :=
  ps.styleStack.getLastD {}

/-- `MarkdownParser._flush_paragraph` (markdown_parser.py:229-245): join the
buffered lines (each stripped) with single spaces, resolve the style from
the pending and paragraph specs, emit one stylable Paragraph event; `none`
for an empty buffer.  The source also clears the buffer in place. -/
def flushParagraph (ps : ParserState) (paragraphLines : List Str) :
    Option BlockEvent × ParserState :=
  if paragraphLines = [] then (none, ps)
  else
    let text := List.intercalate [' '] (paragraphLines.map pyStrip)
    let combinedSpec := mergeSpecs ps.pendingBlockStyleSpec ps.paragraphStyleSpec
    let style := combineStyles (currentStyle ps) combinedSpec
    (some { kind := .paragraph, payload := .paragraph text, style := style,
            stylable := true },
     { ps with paragraphStyleSpec := none, pendingBlockStyleSpec := none,
               lastStylableBlock := true })

/-! ## Claim theorems -/

/-! ### C10: spec merging is a homomorphism onto style combination -/

theorem pyOrStr_pyOrOpt (a b : Option String) (c : String) :
    pyOrStr (pyOrOpt a b) c = pyOrStr a (pyOrStr b c) := by
  cases a with
  | none => rfl
  | some sa =>
    by_cases hsa : sa = "" <;> simp [pyOrOpt, pyOrStr, hsa]

theorem pyOrOpt_assoc (a b c : Option String) :
    pyOrOpt (pyOrOpt a b) c = pyOrOpt a (pyOrOpt b c) := by
  cases a with
  | none => rfl
  | some sa =>
    by_cases hsa : sa = "" <;> simp [pyOrOpt, hsa]

/-- C10: merging two style specs and then combining onto a resolved base
style equals combining the two specs one after the other
(`combine_styles(b, merge_specs(s1, s2)) = combine_styles(combine_styles(b, s1), s2)`),
and consequently `merge_specs` is associative. -/
theorem c10_merge_specs_homomorphism :
    (∀ (b : BlockStyle) (s1 s2 : Option StyleSpec),
      combineStyles b (mergeSpecs s1 s2) = combineStyles (combineStyles b s1) s2) ∧
    (∀ s1 s2 s3 : Option StyleSpec,
      mergeSpecs (mergeSpecs s1 s2) s3 = mergeSpecs s1 (mergeSpecs s2 s3)) := by
  constructor
  · intro b s1 s2
    cases s1 with
    | none => cases s2 <;> simp [combineStyles, mergeSpecs]
    | some f =>
      cases s2 with
      | none => simp [combineStyles, mergeSpecs]
      | some s =>
        simp only [combineStyles, mergeSpecs, BlockStyle.mk.injEq]
        refine ⟨pyOrStr_pyOrOpt _ _ _, ?_, ?_⟩
        · cases s.margin_left <;> simp
        · cases s.margin_right <;> simp
  · intro s1 s2 s3
    cases s1 with
    | none => cases s2 <;> cases s3 <;> simp [mergeSpecs]
    | some f =>
      cases s2 with
      | none => cases s3 <;> simp [mergeSpecs]
      | some s =>
        cases s3 with
        | none => simp [mergeSpecs]
        | some t =>
          simp only [mergeSpecs, Option.some.injEq, StyleSpec.mk.injEq]
          refine ⟨(pyOrOpt_assoc _ _ _).symm, ?_, ?_⟩
          · cases t.margin_left <;> cases s.margin_left <;> simp
          · cases t.margin_right <;> cases s.margin_right <;> simp

/-! ### C8: fail-fast hyphenation configuration -/

/-- C8: if hyphenation is requested and the dictionary capability is missing,
or its initialisation for the requested locale fails, renderer construction
returns an error (so no renderer state and hence no output exists); if
hyphenation is not requested, construction succeeds with an empty output
buffer regardless of the capability. -/
theorem c8_hyphenation_fail_fast (width : Nat) (fm : FrontMatter)
    (cap : Option (String → Except String (String → List String))) :
    (fm.hyphenate = true → cap = none →
      ∃ e, mkTextRenderer width fm cap = .error e) ∧
    (∀ f e, fm.hyphenate = true → cap = some f →
      f (pyOrS fm.hyphen_lang "en_US") = .error e →
      ∃ msg, mkTextRenderer width fm cap = .error msg) ∧
    (fm.hyphenate = false →
      ∃ st, mkTextRenderer width fm cap = .ok st ∧ st.output = []) := by
  refine ⟨?_, ?_, ?_⟩
  · intro hh hc
    subst hc
    refine ⟨"PyHyphen is required for hyphenation but is not installed.", ?_⟩
    simp [mkTextRenderer, hh]
  · intro f e hh hc hf
    subst hc
    refine ⟨"Failed to initialise hyphenator for language " ++
      pyOrS fm.hyphen_lang "en_US" ++ ": " ++ e, ?_⟩
    simp [mkTextRenderer, hh, hf]
  · intro hh
    simp only [mkTextRenderer, hh, Bool.false_eq_true, if_false]
    exact ⟨_, rfl, rfl⟩

theorem c8_hyphenation_fail_fast_witness :
    (∃ e, mkTextRenderer 10 { hyphenate := true } none = .error e) ∧
    (∃ st, mkTextRenderer 10 {} none = .ok st ∧ st.output = []) :=
  ⟨(c8_hyphenation_fail_fast 10 { hyphenate := true } none).1 rfl rfl,
   (c8_hyphenation_fail_fast 10 {} none).2.2 rfl⟩

/-! ### C9: paragraph flush collapses hard line breaks -/

/-- C9: flushing a non-empty buffer of paragraph lines emits exactly one
stylable Paragraph event whose text is the individually stripped lines joined
by single spaces. -/
theorem c9_flush_paragraph (ps : ParserState) (lines : List Str)
    (h : lines ≠ []) :
    (flushParagraph ps lines).1 =
      some { kind := .paragraph,
             payload := .paragraph (List.intercalate [' '] (lines.map pyStrip)),
             style := combineStyles (currentStyle ps)
               (mergeSpecs ps.pendingBlockStyleSpec ps.paragraphStyleSpec),
             stylable := true } := by
  simp [flushParagraph, h]

theorem c9_flush_paragraph_witness :
    (flushParagraph ⟨[{}], none, none, false⟩ ["  a ".toList, "b".toList]).1 =
      some { kind := .paragraph, payload := .paragraph "a b".toList,
             style := {}, stylable := true } := by
  rw [c9_flush_paragraph ⟨[{}], none, none, false⟩ _ (by decide)]
  rfl

/-! ### C6: style updates touch only the recorded window -/

/-- C6: handling a `StyleUpdateEvent` with no live record leaves the state
(and thus the output buffer) unchanged and raises no error; with a live
record it rewrites only the window `[start, start+length)`, leaving the lines
before the window and after it (at their shifted positions) unchanged. -/
theorem c6_style_update_frame (st : RendererState) (spec : StyleSpec) :
    (st.lastStylable = none → applyStyleToLastBlock st spec = st) ∧
    (∀ r, st.lastStylable = some r → r.start + r.length ≤ st.output.length →
      (applyStyleToLastBlock st spec).output.take r.start = st.output.take r.start ∧
      (applyStyleToLastBlock st spec).output.drop
          (r.start + (r.render (combineStyles r.style (some spec))).length) =
        st.output.drop (r.start + r.length)) := by
  constructor
  · intro h
    simp [applyStyleToLastBlock, h]
  · intro r hr hwf
    have hlen : (st.output.take r.start).length = r.start := by
      simp only [List.length_take]
      omega
    constructor
    · simp only [applyStyleToLastBlock, hr]
      rw [List.append_assoc, List.take_left' hlen]
    · simp only [applyStyleToLastBlock, hr]
      rw [show r.start + (r.render (combineStyles r.style (some spec))).length =
        (st.output.take r.start ++ r.render (combineStyles r.style (some spec))).length by
          simp [hlen]]
      rw [List.append_assoc, ← List.append_assoc, List.drop_left]

theorem c6_style_update_frame_witness :
    (applyStyleToLastBlock
        { width := 10, frontmatter := {}, linkReg := {},
          output := ["a".toList, "b".toList, "c".toList],
          paragraphSpacing := 2, hyphenate := false, hyphenLang := "en_US",
          figletFallback := false, headerSpacing := 2, wrapCodeBlocks := false,
          codeBlockLineNumbers := true, blockquoteBars := true,
          wrapCodeBlocksIndent := 0, listMarkerIndent := 0, listTextSpacing := 1,
          baseStyle := {}, hyphenator := none,
          lastStylable := some ⟨1, 1, fun _ => ["X".toList, "Y".toList], {}⟩ }
        { align := some "right" }).output.take 1 = ["a".toList] := by
  have h := (c6_style_update_frame
    { width := 10, frontmatter := {}, linkReg := {},
      output := ["a".toList, "b".toList, "c".toList],
      paragraphSpacing := 2, hyphenate := false, hyphenLang := "en_US",
      figletFallback := false, headerSpacing := 2, wrapCodeBlocks := false,
      codeBlockLineNumbers := true, blockquoteBars := true,
      wrapCodeBlocksIndent := 0, listMarkerIndent := 0, listTextSpacing := 1,
      baseStyle := {}, hyphenator := none,
      lastStylable := some ⟨1, 1, fun _ => ["X".toList, "Y".toList], {}⟩ }
    { align := some "right" }).2 ⟨1, 1, fun _ => ["X".toList, "Y".toList], {}⟩
    rfl (by decide)
  simpa using h.1

/-! ### C4: the sentinel placeholders leak into the final output -/

/-- C4 fails on the code: for the ordinary input `**`x`**` (bold markup
wrapping a code span), the bold pass stylizes the stashed code placeholder
`\u0000CODE0\u0000` into `\u0000   C O D E 0\u0000`, so the final restore
pass no longer finds the placeholder and the NUL sentinels flow through the
paragraph renderer into the finalized output lines. -/
theorem c4_placeholder_leak :
    (processInline {} "**`x`**".toList).1 = "\x00   C O D E 0\x00".toList ∧
    ((finalize (handleEvent (plainRenderer 40)
        (.block { kind := .paragraph, payload := .paragraph "**`x`**".toList,
                  style := {}, stylable := true }))).any
      (fun l => l.contains nulChar)) = true := by
  refine ⟨by decide, by decide⟩

/-! ### C2: ASCII-art overlap fallback -/

theorem computeAsciiPositions_left_right_overlap (p0 p1 : AsciiArtPiece)
    (w0 w1 aw : Nat) (h0 : asciiGroupOf p0.align = "left")
    (h1 : asciiGroupOf p1.align = "right") (haw : aw ≠ 0)
    (hov : aw < min w0 aw + min w1 aw) :
    computeAsciiPositions [p0, p1] [w0, w1] aw = none := by
  simp only [computeAsciiPositions, if_neg haw, List.enum, List.enumFrom,
    List.filter, h0, h1, List.map, List.foldl, List.reverse, List.range,
    List.find?, List.any]
  norm_num
  intro hA hB
  exfalso
  by_cases hw1 : w1 ⊓ aw = aw
  · exact haw (hB (by omega))
  · by_cases hw10 : w1 = 0
    · omega
    · exact haw (hA (by omega) (by omega) (by omega))

theorem alignPreformattedLines_length (width : Nat) (style : BlockStyle)
    (lines : List Str) (ea : Option String) :
    (alignPreformattedLines width style lines ea).length = lines.length := by
  unfold alignPreformattedLines
  split
  · simp [*]
  · simp

/-- C2 (amended): the engine's overlap check compares the placed intervals
and ignores the 4-column gap.  For a left-aligned piece and a right-aligned
piece, it falls back to vertical stacking exactly when the clamped piece
widths alone exceed the available width; the fallback output is the two
pieces stacked, so its line count is the sum of the pieces' line counts. -/
theorem c2_overlap_fallback_stacks (st : RendererState) (style : BlockStyle)
    (p0 p1 : AsciiArtPiece)
    (h0 : asciiGroupOf p0.align = "left") (h1 : asciiGroupOf p1.align = "right")
    (hov : (margins st.width style).2.2 <
      min (asciiPieceWidth p0.lines) ((margins st.width style).2.2) +
        min (asciiPieceWidth p1.lines) ((margins st.width style).2.2)) :
    layoutAsciiPieces st [p0, p1] style =
      alignPreformattedLines st.width style p0.lines p0.align ++
        alignPreformattedLines st.width style p1.lines p1.align ∧
    (layoutAsciiPieces st [p0, p1] style).length =
      p0.lines.length + p1.lines.length := by
  have haw : (margins st.width style).2.2 ≠ 0 := by
    have := margins_available_pos st.width style
    omega
  have hnone := computeAsciiPositions_left_right_overlap p0 p1
    (asciiPieceWidth p0.lines) (asciiPieceWidth p1.lines)
    ((margins st.width style).2.2) h0 h1 haw hov
  have hmain : layoutAsciiPieces st [p0, p1] style =
      alignPreformattedLines st.width style p0.lines p0.align ++
        alignPreformattedLines st.width style p1.lines p1.align := by
    simp only [layoutAsciiPieces, List.map, hnone]
    simp
  refine ⟨hmain, ?_⟩
  rw [hmain]
  simp [alignPreformattedLines_length]

/-- C2 as stated is false on the code: at document width 10 (available width
10), a 4-wide left piece of 1 line and a 4-wide right piece of 2 lines have
combined widths plus gap 4+4+4 = 12 > 10, yet the engine still composites
them side by side and emits max(1,2) = 2 lines, not 1+2 = 3. -/
theorem c2_overlap_fallback_counterexample :
    (margins (plainRenderer 10).width {}).2.2 <
        asciiPieceWidth ["AAAA".toList] +
          asciiPieceWidth ["BBBB".toList, "BBBB".toList] + 4 ∧
    (layoutAsciiPieces (plainRenderer 10)
        [{ lines := ["AAAA".toList] },
         { lines := ["BBBB".toList, "BBBB".toList], align := some "right" }]
        {}).length = 2 ∧
    (["AAAA".toList] : List Str).length +
        (["BBBB".toList, "BBBB".toList] : List Str).length = 3 := by
  refine ⟨by decide, by decide, by decide⟩

theorem c2_overlap_fallback_stacks_witness :
    (layoutAsciiPieces (plainRenderer 10)
        [{ lines := ["AAAAAA".toList] },
         { lines := ["BBBBBB".toList, "BBBBBB".toList], align := some "right" }]
        {}).length = 3 := by
  have h := (c2_overlap_fallback_stacks (plainRenderer 10) {}
    { lines := ["AAAAAA".toList] }
    { lines := ["BBBBBB".toList, "BBBBBB".toList], align := some "right" }
    (by decide) (by decide) (by decide)).2
  simpa using h

/-! ### C1: the width invariant -/

theorem pyRstrip_length_le (l : Str) : (pyRstrip l).length ≤ l.length := by
  simp only [pyRstrip, List.length_reverse]
  have := dropWhile_length_le Char.isWhitespace l.reverse
  simpa using this

theorem paintRow_length (aw : Nat) :
    ∀ (line : Str) (row : Str) (t : Nat),
      (paintRow aw row t line).length = row.length := by
  intro line
  induction line with
  | nil => intro row t; rfl
  | cons c cs ih =>
    intro row t
    rw [paintRow]
    split
    · rfl
    · rw [ih]
      by_cases hc : c = ' ' <;> simp [hc, List.length_set]

theorem paintPieceRows_row_length (aw : Nat) (canvas : List Str)
    (piece : AsciiArtPiece) (pos : Nat) (h : ∀ r ∈ canvas, r.length = aw) :
    ∀ r ∈ paintPieceRows aw canvas piece pos, r.length = aw := by
  intro r hr
  simp only [paintPieceRows, List.mem_map] at hr
  obtain ⟨p, hmem, rfl⟩ := hr
  have hrow : p.2 ∈ canvas := List.snd_mem_of_mem_enum hmem
  split
  · rw [paintRow_length]
    exact h _ hrow
  · exact h _ hrow

theorem canvas_fold_row_length (aw : Nat)
    (positions : List (AsciiArtPiece × Nat × Nat)) :
    ∀ canvas, (∀ r ∈ canvas, r.length = aw) →
      ∀ r ∈ positions.foldl (fun cv t => paintPieceRows aw cv t.1 t.2.1) canvas,
        r.length = aw := by
  induction positions with
  | nil => intro canvas h r hr; exact h r hr
  | cons t ts ih =>
    intro canvas h r hr
    exact ih _ (paintPieceRows_row_length aw canvas t.1 t.2.1 h) r hr

/-- C1 (amended): alignment and margins never push a line past the document
width — every aligned line is at most `max width (content length)` long —
and horizontal-rule lines and side-by-side composited ASCII-art rows are
always at most `width` long.  (The blanket invariant of the claim fails for
content-driven overflows; see the counterexample.) -/
theorem c1_width_amended :
    (∀ (width : Nat) (style : BlockStyle) (ml aw : Nat) (line : Str),
      (alignOne width style ml aw line).length ≤ max width (pyRstrip line).length) ∧
    (∀ (width : Nat) (style : BlockStyle), 1 ≤ width →
      (horizontalRuleLine width style).length ≤ width) ∧
    (∀ (st : RendererState) (style : BlockStyle) (p0 p1 : AsciiArtPiece)
      (prest : List AsciiArtPiece), 1 ≤ st.width →
      computeAsciiPositions (p0 :: p1 :: prest)
          ((p0 :: p1 :: prest).map (fun p => asciiPieceWidth p.lines))
          (margins st.width style).2.2 ≠ none →
      ∀ l ∈ layoutAsciiPieces st (p0 :: p1 :: prest) style,
        l.length ≤ st.width) := by
  refine ⟨alignOne_length_le, ?_, ?_⟩
  · intro width style hw
    have := margins_left_add_available_le width style hw
    simp only [horizontalRuleLine, spaces, List.length_append,
      List.length_replicate]
    omega
  · intro st style p0 p1 prest hw hcomp l hl
    have hmargins := margins_left_add_available_le st.width style hw
    rw [layoutAsciiPieces] at hl
    cases hpos : computeAsciiPositions (p0 :: p1 :: prest)
        ((p0 :: p1 :: prest).map (fun p => asciiPieceWidth p.lines))
        (margins st.width style).2.2 with
    | none => exact absurd hpos hcomp
    | some positions =>
      rw [hpos] at hl
      simp only [List.mem_map] at hl
      obtain ⟨row, hrow, rfl⟩ := hl
      have hlen : row.length = (margins st.width style).2.2 := by
        refine canvas_fold_row_length _ positions _ ?_ row hrow
        intro r hr
        rw [List.eq_of_mem_replicate hr]
        simp [spaces]
      have := pyRstrip_length_le row
      simp only [spaces, List.length_append, List.length_replicate]
      omega

theorem c1_width_amended_witness :
    (alignOne 10 { align := "right" } 2 8 "hi".toList).length ≤
      max 10 (pyRstrip "hi".toList).length ∧
    (horizontalRuleLine 10 {}).length ≤ 10 ∧
    ∀ l ∈ layoutAsciiPieces (plainRenderer 10)
        [{ lines := ["AA".toList] }, { lines := ["BB".toList], align := some "right" }]
        {}, l.length ≤ 10 :=
  ⟨c1_width_amended.1 10 { align := "right" } 2 8 "hi".toList,
   c1_width_amended.2.1 10 {} (by decide),
   c1_width_amended.2.2 (plainRenderer 10) {} { lines := ["AA".toList] }
     { lines := ["BB".toList], align := some "right" } [] (by decide) (by decide)⟩

/-- C1 as stated is false on the code: in the default configuration
(code-block wrapping disabled, line numbering on) a code block containing a
16-character line at document width 10 is emitted as the 21-character line
`01 | 0123456789012345` — longer than the document width. -/
theorem c1_width_counterexample :
    ((finalize (handleEvent (plainRenderer 10)
        (.block { kind := .codeBlock,
                  payload := .codeBlock ["0123456789012345".toList],
                  style := {} }))).any (fun l => decide (10 < l.length))) = true := by
  decide

/-! ### C3: hyphenation safety -/

/-- No hyphen anywhere in the string. -/
def noHyp (l : Str) : Prop := '-' ∉ l

/-- Any hyphen is the last character of the string. -/
def hypLast (l : Str) : Prop := '-' ∉ l.dropLast

/-- A line as the wrapper flushes it: hyphen only at the end, already
right-trimmed. -/
def flushedLine (l : Str) : Prop := hypLast l ∧ pyRstrip l = l

instance noHypDecidable (l : Str) : Decidable (noHyp l) :=
  inferInstanceAs (Decidable ('-' ∉ l))

instance hypLastDecidable (l : Str) : Decidable (hypLast l) :=
  inferInstanceAs (Decidable ('-' ∉ l.dropLast))

theorem pyRstrip_subset (l : Str) : ∀ x ∈ pyRstrip l, x ∈ l := by
  intro x hx
  simp only [pyRstrip, List.mem_reverse] at hx
  exact List.mem_reverse.mp ((List.dropWhile_suffix _).sublist.subset hx)

theorem dropWhile_dropWhile (p : Char → Bool) (l : Str) :
    (l.dropWhile p).dropWhile p = l.dropWhile p := by
  induction l with
  | nil => rfl
  | cons c cs ih =>
    by_cases h : p c
    · simp [List.dropWhile_cons, h, ih]
    · simp [List.dropWhile_cons, h]

theorem pyRstrip_idem (l : Str) : pyRstrip (pyRstrip l) = pyRstrip l := by
  simp only [pyRstrip, List.reverse_reverse]
  rw [dropWhile_dropWhile]

theorem noHyp_pyRstrip (l : Str) (h : noHyp l) : noHyp (pyRstrip l) :=
  fun hx => h (pyRstrip_subset l _ hx)

theorem hypLast_of_noHyp (l : Str) (h : noHyp l) : hypLast l :=
  fun hx => h ((List.dropLast_sublist l).subset hx)

theorem pyRstrip_concat_nonws (l : Str) (c : Char) (hc : c.isWhitespace = false) :
    pyRstrip (l ++ [c]) = l ++ [c] := by
  simp only [pyRstrip, List.reverse_append, List.reverse_cons, List.reverse_nil,
    List.nil_append, List.singleton_append, List.dropWhile_cons, hc,
    Bool.false_eq_true, if_false, List.reverse_cons, List.reverse_reverse]

theorem hypLast_concat_hyphen (l : Str) (h : noHyp l) : hypLast (l ++ ['-']) := by
  unfold hypLast
  rw [List.dropLast_concat]
  exact h

theorem flushedLine_pyRstrip_of_noHyp (l : Str) (h : noHyp l) :
    flushedLine (pyRstrip l) :=
  ⟨hypLast_of_noHyp _ (noHyp_pyRstrip l h), pyRstrip_idem l⟩

theorem flushedLine_hyphen_flush (x : Str) (h : noHyp x) :
    flushedLine (pyRstrip (x ++ ['-'])) := by
  rw [pyRstrip_concat_nonws x '-' (by decide)]
  exact ⟨hypLast_concat_hyphen x h, pyRstrip_concat_nonws x '-' (by decide)⟩

theorem noHyp_append (a b : Str) (ha : noHyp a) (hb : noHyp b) : noHyp (a ++ b) := by
  simp only [noHyp, List.mem_append]
  intro hc
  rcases hc with hc | hc
  · exact ha hc
  · exact hb hc

theorem noHyp_flatten (L : List Str) (h : ∀ s ∈ L, noHyp s) : noHyp L.flatten := by
  simp only [noHyp, List.mem_flatten]
  rintro ⟨s, hs, hmem⟩
  exact h s hs hmem

theorem noHyp_spaces (n : Nat) : noHyp (spaces n) := by
  simp only [noHyp, spaces, List.mem_replicate]
  rintro ⟨-, h⟩
  cases h

theorem hypLast_spaces_append (n : Nat) (l : Str) (h : hypLast l) :
    hypLast (spaces n ++ l) := by
  cases hl : l with
  | nil =>
    simp only [List.append_nil]
    exact hypLast_of_noHyp _ (noHyp_spaces n)
  | cons c cs =>
    unfold hypLast
    rw [List.dropLast_append_of_ne_nil _ (by simp)]
    intro hmem
    rcases List.mem_append.mp hmem with hm | hm
    · exact noHyp_spaces n hm
    · exact (hl ▸ h) hm

/-- The wrapper invariant: every flushed line has its hyphen (if any) last
and is right-trimmed, and the current line contains no hyphen at all. -/
def WrapInv (st : WrapSt) : Prop :=
  (∀ l ∈ st.lines, flushedLine l) ∧ noHyp st.line

theorem wrapFlush_inv (st : WrapSt) (subsequent : Str) (hsub : noHyp subsequent)
    (hinv : WrapInv st) : WrapInv (wrapFlush st subsequent) := by
  refine ⟨?_, hsub⟩
  intro l hl
  simp only [wrapFlush, List.mem_append, List.mem_singleton] at hl
  rcases hl with hl | rfl
  · exact hinv.1 l hl
  · exact flushedLine_pyRstrip_of_noHyp _ hinv.2

theorem wrapFlush_inv_of (st : WrapSt) (subsequent newLine : Str)
    (hsub : noHyp subsequent) (hlines : ∀ l ∈ st.lines, flushedLine l)
    (hnew : flushedLine (pyRstrip newLine)) :
    WrapInv (wrapFlush { st with line := newLine } subsequent) := by
  refine ⟨?_, hsub⟩
  intro l hl
  simp only [wrapFlush, List.mem_append, List.mem_singleton] at hl
  rcases hl with hl | rfl
  · exact hlines l hl
  · exact hnew

theorem hyphSegsLoop_inv (width : Nat) (subsequent : Str) (hsub : noHyp subsequent) :
    ∀ fuel segments st st',
      (∀ s ∈ segments, noHyp s) → WrapInv st →
      hyphSegsLoop width subsequent fuel segments st = some st' → WrapInv st' := by
  intro fuel
  induction fuel with
  | zero =>
    intro segments st st' _ _ h
    exact absurd h (by simp [hyphSegsLoop])
  | succ fuel ih =>
    intro segments st st' hsegs hinv h
    cases segments with
    | nil =>
      simp only [hyphSegsLoop, Option.some.injEq] at h
      exact h ▸ hinv
    | cons seg rest =>
      have hseg : noHyp seg := hsegs seg (List.mem_cons_self _ _)
      have hrest : ∀ s ∈ rest, noHyp s :=
        fun s hs => hsegs s (List.mem_cons_of_mem _ hs)
      rw [hyphSegsLoop] at h
      split at h
      · exact ih _ _ _ hsegs (wrapFlush_inv _ _ hsub hinv) h
      · split at h
        · -- splitIndex = none
          dsimp only at h
          split at h
          · -- the whole token fits
            simp only [Option.some.injEq] at h
            subst h
            exact ⟨hinv.1, noHyp_append _ _ hinv.2 (noHyp_flatten _ hsegs)⟩
          · split at h
            · -- forced split degenerate: flush and retry
              exact ih _ _ _ hsegs (wrapFlush_inv _ _ hsub hinv) h
            · -- forced split with a literal hyphen
              have hx : noHyp (st.line ++
                  seg.take (min seg.length (width - st.line.length - 1))) :=
                noHyp_append _ _ hinv.2
                  (fun hc => hseg ((List.take_prefix _ seg).sublist.subset hc))
              have hnew : flushedLine (pyRstrip (st.line ++
                  (seg.take (min seg.length (width - st.line.length - 1)) ++ ['-']))) := by
                rw [← List.append_assoc]
                exact flushedLine_hyphen_flush _ hx
              refine ih _ _ _ ?_ (wrapFlush_inv_of _ _ _ hsub hinv.1 hnew) h
              intro s hs
              split at hs
              · exact hrest s hs
              · rcases List.mem_cons.mp hs with rfl | hs2
                · exact fun hc => hseg ((List.drop_suffix _ seg).sublist.subset hc)
                · exact hrest s hs2
        · -- splitIndex = some k
          dsimp only at h
          split at h
          · -- the whole token fits
            simp only [Option.some.injEq] at h
            subst h
            exact ⟨hinv.1, noHyp_append _ _ hinv.2 (noHyp_flatten _ hsegs)⟩
          · -- consume k segments and append a hyphen
            have hcons : ∀ k, noHyp (((seg :: rest).take k).flatten) :=
              fun k => noHyp_flatten _
                (fun s hs => hsegs s ((List.take_prefix _ _).sublist.subset hs))
            refine ih _ _ _ ?_ (wrapFlush_inv_of _ _ _ hsub hinv.1
              (flushedLine_hyphen_flush _ (noHyp_append _ _ hinv.2 (hcons _)))) h
            intro s hs
            exact hsegs s ((List.drop_suffix _ _).sublist.subset hs)

theorem mem_of_mem_filter_map_toList (parts : List String) (s : Str)
    (hs : s ∈ (parts.map String.toList).filter (fun t => t ≠ [])) :
    ∃ p ∈ parts, s = p.toList := by
  have hs2 := List.mem_of_mem_filter hs
  obtain ⟨p, hp, rfl⟩ := List.mem_map.mp hs2
  exact ⟨p, hp, rfl⟩

theorem hyphenateToken_segments_noHyp (hyph : String → List String) (tok : Str)
    (segs : List Str) (htok : noHyp tok)
    (hdict : ∀ w s, s ∈ hyph w → ¬ '-' ∈ s.toList)
    (h : hyphenateToken hyph tok = some segs) : ∀ s ∈ segs, noHyp s := by
  simp only [hyphenateToken] at h
  split at h
  · exact absurd h (by simp)
  · split at h
    · exact absurd h (by simp)
    · split at h
      · exact absurd h (by simp)
      · split at h
        · exact absurd h (by simp)
        · split at h
          · exact absurd h (by simp)
          case _ s0 srest heq =>
            simp only [Option.some.injEq] at h
            subst h
            have hFromSegs : ∀ s, s ∈ s0 :: srest → noHyp s := by
              intro s hs
              rw [← heq] at hs
              obtain ⟨p, hp, rfl⟩ := mem_of_mem_filter_map_toList _ s hs
              exact hdict _ p hp
            have hlead : noHyp (tok.takeWhile (fun c => !hyphWordChar c)) :=
              fun hc => htok ((List.takeWhile_prefix _).sublist.subset hc)
            have htrail : ∀ a b : Nat, noHyp ((tok.drop a).drop b) :=
              fun a b hc => htok ((List.drop_suffix a tok).sublist.subset
                ((List.drop_suffix b _).sublist.subset hc))
            have hWithLead : ∀ s, s ∈
                (tok.takeWhile (fun c => !hyphWordChar c) ++ s0) :: srest → noHyp s := by
              intro s hs
              rcases List.mem_cons.mp hs with rfl | hs2
              · exact noHyp_append _ _ hlead (hFromSegs s0 (List.mem_cons_self _ _))
              · exact hFromSegs s (List.mem_cons_of_mem _ hs2)
            intro s hs
            rcases List.mem_or_eq_of_mem_set hs with hs2 | rfl
            · exact hWithLead s hs2
            · refine noHyp_append _ _ ?_ (htrail _ _)
              refine hWithLead _ ?_
              rw [List.getLastD_cons]
              exact List.getLastD_mem_cons _ _

theorem splitRunsGo_subset :
    ∀ fuel (l : Str) t, t ∈ splitRunsGo fuel l → ∀ c ∈ t, c ∈ l := by
  intro fuel
  induction fuel with
  | zero => intro l t ht; simp [splitRunsGo] at ht
  | succ fuel ih =>
    intro l t ht c hc
    cases l with
    | nil => simp [splitRunsGo] at ht
    | cons a cs =>
      simp only [splitRunsGo, List.mem_cons] at ht
      rcases ht with rfl | ht
      · rcases List.mem_cons.mp hc with rfl | hc2
        · exact List.mem_cons_self _ _
        · exact List.mem_cons_of_mem _ ((List.takeWhile_prefix _).sublist.subset hc2)
      · exact List.mem_cons_of_mem _
          ((List.dropWhile_suffix _).sublist.subset (ih _ t ht c hc))

theorem hyphTokens_inv (hyph : String → List String) (width : Nat)
    (subsequent : Str) (fuel : Nat) (hsub : noHyp subsequent)
    (hdict : ∀ w s, s ∈ hyph w → ¬ '-' ∈ s.toList) :
    ∀ toks st st', (∀ t ∈ toks, noHyp t) → WrapInv st →
      hyphTokens hyph width subsequent fuel toks st = some st' → WrapInv st' := by
  intro toks
  induction toks with
  | nil =>
    intro st st' _ hinv h
    simp only [hyphTokens, Option.some.injEq] at h
    exact h ▸ hinv
  | cons tok toks ih =>
    intro st st' htoks hinv h
    have htok : noHyp tok := htoks tok (List.mem_cons_self _ _)
    have htoks' : ∀ t ∈ toks, noHyp t := fun t ht => htoks t (List.mem_cons_of_mem _ ht)
    rw [hyphTokens] at h
    split at h
    · split at h
      · exact ih _ _ htoks' (wrapFlush_inv _ _ hsub hinv) h
      · refine ih _ _ htoks' ?_ h
        exact ⟨hinv.1, noHyp_append _ _ hinv.2 htok⟩
    · dsimp only at h
      have hsegs : ∀ s ∈ pyOrList (hyphenateToken hyph tok) [tok], noHyp s := by
        cases hht : hyphenateToken hyph tok with
        | none => simpa [pyOrList] using htok
        | some segs =>
          cases segs with
          | nil => simpa [pyOrList] using htok
          | cons s0 srest =>
            have := hyphenateToken_segments_noHyp hyph tok (s0 :: srest) htok hdict hht
            simpa [pyOrList] using this
      cases hloop : hyphSegsLoop width subsequent fuel
          (pyOrList (hyphenateToken hyph tok) [tok]) st with
      | none => rw [hloop] at h; exact absurd h (by simp)
      | some stMid =>
        rw [hloop] at h
        exact ih _ _ htoks' (hyphSegsLoop_inv width subsequent hsub fuel _ _ _
          hsegs hinv hloop) h

theorem drop_takeWhile_length (p : Char → Bool) (l : Str) :
    l.drop (l.takeWhile p).length = l.dropWhile p := by
  have h := @List.drop_left' _ (l.takeWhile p) (l.dropWhile p)
    (l.takeWhile p).length rfl
  rw [List.takeWhile_append_dropWhile] at h
  exact h

/-- C3 (amended): dictionary-driven hyphen splits only happen for tokens
whose letter core is longer than 4 characters (`_hyphenate_token` refuses
shorter words), but the forced mid-word split of the wrapper can insert a
hyphen into any word — including one of 4 letters or fewer — whenever the
word cannot fit in the remaining line; and for hyphen-free input (text,
indents and dictionary output), every hyphen the wrapper emits is the last
character of its right-trimmed line. -/
theorem c3_hyphenation_amended :
    (∀ (hyph : String → List String) (token : Str) (segs : List Str),
      hyphenateToken hyph token = some segs → 4 < (letterCore token).length) ∧
    (∀ (hyph : String → List String) (fuel width : Nat)
      (text initialIndent subsequentIndent : Str) (style : BlockStyle)
      (aw : Nat) (out : List Str),
      noHyp text → noHyp initialIndent → noHyp subsequentIndent →
      (∀ w s, s ∈ hyph w → ¬ '-' ∈ s.toList) →
      wrapTextHyphenated hyph fuel width text initialIndent subsequentIndent
        style aw = some out →
      ∀ l ∈ out, hypLast l) := by
  constructor
  · intro hyph token segs h
    simp only [hyphenateToken] at h
    split at h
    · exact absurd h (by simp)
    · split at h
      case _ hlen =>
        exact absurd h (by simp)
      case _ hlen =>
        rw [not_le] at hlen
        rw [letterCore, ← drop_takeWhile_length (fun c => !hyphWordChar c) token]
        exact hlen
  · intro hyph fuel width text initialIndent subsequentIndent style aw out
      htext hinit hsubs hdict h
    unfold wrapTextHyphenated at h
    cases hres : hyphTokens hyph aw subsequentIndent fuel (splitRuns text)
        ⟨[], initialIndent, initialIndent⟩ with
    | none => rw [hres] at h; exact absurd h (by simp)
    | some st =>
      rw [hres] at h
      simp only [Option.some.injEq] at h
      have htoks : ∀ t ∈ splitRuns text, noHyp t := by
        intro t ht hc
        exact htext (splitRunsGo_subset _ text t ht '-' hc)
      have hinv : WrapInv st :=
        hyphTokens_inv hyph aw subsequentIndent fuel hsubs hdict _ _ _ htoks
          ⟨by intro l hl; exact absurd hl (by simp), hinit⟩ hres
      have hlines1 : ∀ l ∈ (if pyStrip st.line ≠ [] then
          st.lines ++ [pyRstrip st.line] else st.lines), flushedLine l := by
        intro l hl
        split at hl
        · rcases List.mem_append.mp hl with hl2 | hl2
          · exact hinv.1 l hl2
          · rw [List.mem_singleton] at hl2
            exact hl2 ▸ flushedLine_pyRstrip_of_noHyp _ hinv.2
        · exact hinv.1 l hl
      set L := (if pyStrip st.line ≠ [] then st.lines ++ [pyRstrip st.line]
        else st.lines) with hLdef
      have hlines2 : ∀ l ∈ (if L = [] then [pyRstrip initialIndent] else L),
          flushedLine l := by
        intro l hl
        split at hl
        · rw [List.mem_singleton] at hl
          exact hl ▸ flushedLine_pyRstrip_of_noHyp _ hinit
        · exact hlines1 l hl
      intro l hl
      rw [← h] at hl
      simp only [alignWrapped, List.mem_map] at hl
      obtain ⟨orig, horig, rfl⟩ := hl
      have hfl := hlines2 orig horig
      unfold alignOne
      rw [hfl.2]
      exact hypLast_spaces_append _ _ hfl.1

/-- C3 as stated is false on the code: with any dictionary (here one that
never decomposes anything), wrapping the hyphen-free 4-letter word `abcd` at
available width 3 force-splits it into `ab-` / `cd`, inserting a literal
hyphen inside a word of letter length ≤ 4. -/
theorem c3_hyphenation_counterexample :
    wrapTextHyphenated (fun _ => []) 32 3 "abcd".toList [] [] {} 3 =
      some ["ab-".toList, "cd".toList] ∧
    (letterCore "abcd".toList).length ≤ 4 ∧
    ¬ '-' ∈ "abcd".toList ∧ '-' ∈ "ab-".toList := by
  refine ⟨by decide, by decide, by decide, by decide⟩

theorem c3_hyphenation_amended_witness :
    4 < (letterCore "hyphenation".toList).length ∧
    hypLast "hel-".toList ∧ hypLast "lo".toList :=
  ⟨c3_hyphenation_amended.1 (fun w => if w = "hyphenation" then
      ["hy", "phen", "a", "tion"] else []) "hyphenation".toList
      ["hy".toList, "phen".toList, "a".toList, "tion".toList] (by decide),
   c3_hyphenation_amended.2 (fun _ => []) 32 4 "hello".toList [] [] {} 4
      ["hel-".toList, "lo".toList] (by decide) (by decide) (by decide)
      (by intro w s hs; exact absurd hs (List.not_mem_nil s)) (by decide)
      "hel-".toList (by decide),
   c3_hyphenation_amended.2 (fun _ => []) 32 4 "hello".toList [] [] {} 4
      ["hel-".toList, "lo".toList] (by decide) (by decide) (by decide)
      (by intro w s hs; exact absurd hs (List.not_mem_nil s)) (by decide)
      "lo".toList (by decide)⟩

/-! ### C5: link registry determinism -/

/-- The first-seen distinct urls among a prefix of registrations. -/
def distinctPrefix (l : List Str) : List Str :=
  l.foldl (fun acc u => if u ∈ acc then acc else acc ++ [u]) []

/-- The registry index returned by each successive `_register_link` call. -/
def registerTrace (st : LinkState) : List Str → List Nat
  | [] => []
  | u :: us => (registerLink st u).1 :: registerTrace (registerLink st u).2 us

/-- The registry state after a batch of `_register_link` calls. -/
def registerAll (st : LinkState) : List Str → LinkState
  | [] => st
  | u :: us => registerAll (registerLink st u).2 us

theorem lookup_cons_if (u k : Str) (v : Nat) (l : List (Str × Nat)) :
    List.lookup u ((k, v) :: l) = if u == k then some v else List.lookup u l := by
  simp only [List.lookup]
  split <;> rename_i hbeq <;> rw [hbeq] <;> rfl

theorem lookup_append_some (l : List (Str × Nat)) (e : Str × Nat) (u : Str) (i : Nat)
    (h : List.lookup u l = some i) : List.lookup u (l ++ [e]) = some i := by
  induction l with
  | nil => simp [List.lookup] at h
  | cons kv rest ih =>
    obtain ⟨k, v⟩ := kv
    by_cases hb : u == k
    · simp only [lookup_cons_if, hb, if_true] at h
      simp only [List.cons_append, lookup_cons_if, hb, if_true]
      exact h
    · simp only [lookup_cons_if, hb, if_false] at h
      simp only [List.cons_append, lookup_cons_if, hb, if_false]
      exact ih h

theorem lookup_append_self (l : List (Str × Nat)) (u : Str) (i : Nat)
    (h : List.lookup u l = none) : List.lookup u (l ++ [(u, i)]) = some i := by
  induction l with
  | nil => simp [List.lookup]
  | cons kv rest ih =>
    obtain ⟨k, v⟩ := kv
    by_cases hb : u == k
    · simp only [lookup_cons_if, hb, if_true] at h
      exact absurd h (by simp)
    · simp only [lookup_cons_if, hb, if_false] at h
      simp only [List.cons_append, lookup_cons_if, hb, if_false]
      exact ih h

theorem registerLink_lookup_self (st : LinkState) (u : Str) :
    (registerLink st u).2.linkIndices.lookup u = some (registerLink st u).1 := by
  simp only [registerLink]
  cases hl : st.linkIndices.lookup u with
  | some i => simpa using hl
  | none => simpa using lookup_append_self _ _ _ hl

theorem registerLink_preserves (st : LinkState) (u v : Str) (i : Nat)
    (h : st.linkIndices.lookup u = some i) :
    (registerLink st v).2.linkIndices.lookup u = some i := by
  simp only [registerLink]
  cases hl : st.linkIndices.lookup v with
  | some j => simpa using h
  | none => simpa using lookup_append_some _ _ _ _ h

theorem registerAll_preserves (us : List Str) (st : LinkState) (u : Str) (i : Nat)
    (h : st.linkIndices.lookup u = some i) :
    (registerAll st us).linkIndices.lookup u = some i := by
  induction us generalizing st with
  | nil => simpa [registerAll] using h
  | cons v vs ih => exact ih _ (registerLink_preserves st u v i h)

/-- Each trace entry equals the final registry's binding of its url. -/
theorem registerTrace_lookup_final (us : List Str) (st : LinkState) (k : Nat)
    (hk : k < us.length) :
    (registerAll st us).linkIndices.lookup (us.getD k []) =
      some ((registerTrace st us).getD k 0) := by
  induction us generalizing st k with
  | nil => exact absurd hk (by simp)
  | cons u vs ih =>
    cases k with
    | zero =>
      simp only [registerTrace, registerAll, List.getD_cons_zero]
      exact registerAll_preserves vs _ u _ (registerLink_lookup_self st u)
    | succ k' =>
      simp only [registerTrace, registerAll, List.getD_cons_succ]
      exact ih _ k' (by simpa using hk)

/-- The url-to-index table built by registering the distinct urls `ds` in
order, with indices counted from `n`. -/
def enumFromNat (n : Nat) : List Str → List (Str × Nat)
  | [] => []
  | u :: us => (u, n) :: enumFromNat (n + 1) us

/-- The index/url pair list (`self.links`) for distinct urls `ds`. -/
def enumLinks (n : Nat) : List Str → List (Nat × Str)
  | [] => []
  | u :: us => (n, u) :: enumLinks (n + 1) us

/-- The registry state is exactly the one built from the distinct urls `ds`
in first-seen order with indices 1, 2, .... -/
def RegistryOf (st : LinkState) (ds : List Str) : Prop :=
  st.links = enumLinks 1 ds ∧ st.linkIndices = enumFromNat 1 ds

theorem enumFromNat_append (ds : List Str) (u : Str) :
    ∀ n, enumFromNat n (ds ++ [u]) = enumFromNat n ds ++ [(u, n + ds.length)] := by
  induction ds with
  | nil => intro n; simp [enumFromNat]
  | cons d ds ih =>
    intro n
    have harith : n + 1 + ds.length = n + (ds.length + 1) := by omega
    calc enumFromNat n ((d :: ds) ++ [u])
        = (d, n) :: enumFromNat (n + 1) (ds ++ [u]) := rfl
      _ = (d, n) :: (enumFromNat (n + 1) ds ++ [(u, n + 1 + ds.length)]) := by rw [ih]
      _ = enumFromNat n (d :: ds) ++ [(u, n + (d :: ds).length)] := by
          rw [harith]; simp [enumFromNat]

theorem enumLinks_append (ds : List Str) (u : Str) :
    ∀ n, enumLinks n (ds ++ [u]) = enumLinks n ds ++ [(n + ds.length, u)] := by
  induction ds with
  | nil => intro n; simp [enumLinks]
  | cons d ds ih =>
    intro n
    have harith : n + 1 + ds.length = n + (ds.length + 1) := by omega
    calc enumLinks n ((d :: ds) ++ [u])
        = (n, d) :: enumLinks (n + 1) (ds ++ [u]) := rfl
      _ = (n, d) :: (enumLinks (n + 1) ds ++ [(n + 1 + ds.length, u)]) := by rw [ih]
      _ = enumLinks n (d :: ds) ++ [(n + (d :: ds).length, u)] := by
          rw [harith]; simp [enumLinks]

theorem enumLinks_length (ds : List Str) : ∀ n, (enumLinks n ds).length = ds.length := by
  induction ds with
  | nil => intro n; rfl
  | cons d ds ih => intro n; simp [enumLinks, ih]

theorem lookup_enumFromNat_of_not_mem (ds : List Str) (u : Str) (h : u ∉ ds) :
    ∀ n, List.lookup u (enumFromNat n ds) = none := by
  induction ds with
  | nil => intro n; rfl
  | cons d ds ih =>
    intro n
    have hne : u ≠ d := fun he => h (he ▸ List.mem_cons_self d ds)
    simp only [enumFromNat, lookup_cons_if, beq_false_of_ne hne, Bool.false_eq_true,
      if_false]
    exact ih (fun hm => h (List.mem_cons_of_mem d hm)) (n + 1)

theorem lookup_enumFromNat_isSome_of_mem (ds : List Str) (u : Str) (h : u ∈ ds) :
    ∀ n, (List.lookup u (enumFromNat n ds)).isSome := by
  induction ds with
  | nil => exact absurd h (by simp)
  | cons d ds ih =>
    intro n
    by_cases hb : u == d
    · simp [enumFromNat, lookup_cons_if, hb]
    · have hm : u ∈ ds := by
        cases List.mem_cons.mp h with
        | inl he => exact absurd (by exact_mod_cast beq_iff_eq.mpr he) hb
        | inr hm => exact hm
      simp only [enumFromNat, lookup_cons_if, hb, if_false]
      exact ih hm (n + 1)

theorem registerAll_registry (us : List Str) :
    ∀ st ds, RegistryOf st ds →
      RegistryOf (registerAll st us)
        (us.foldl (fun acc u => if u ∈ acc then acc else acc ++ [u]) ds) := by
  induction us with
  | nil => intro st ds h; simpa [registerAll] using h
  | cons u vs ih =>
    intro st ds h
    simp only [registerAll, List.foldl_cons]
    by_cases hmem : u ∈ ds
    · have hsome : (st.linkIndices.lookup u).isSome := by
        rw [h.2]; exact lookup_enumFromNat_isSome_of_mem ds u hmem 1
      obtain ⟨i, hi⟩ := Option.isSome_iff_exists.mp hsome
      have hst : (registerLink st u).2 = st := by simp [registerLink, hi]
      rw [hst, if_pos hmem]
      exact ih st ds h
    · have hnone : st.linkIndices.lookup u = none := by
        rw [h.2]; exact lookup_enumFromNat_of_not_mem ds u hmem 1
      rw [if_neg hmem]
      apply ih
      have hlinkslen : st.links.length = ds.length := by
        rw [h.1]; exact enumLinks_length ds 1
      have harith : ds.length + 1 = 1 + ds.length := by omega
      have hnone' : List.lookup u (enumFromNat 1 ds) = none :=
        lookup_enumFromNat_of_not_mem ds u hmem 1
      constructor
      · simp only [registerLink, hnone', h.1, h.2, enumLinks_append, enumLinks_length]
        rw [harith]
      · simp only [registerLink, hnone', h.1, h.2, enumFromNat_append, enumLinks_length]
        rw [harith]

theorem registerTrace_append (xs ys : List Str) :
    ∀ st, registerTrace st (xs ++ ys) =
      registerTrace st xs ++ registerTrace (registerAll st xs) ys := by
  induction xs with
  | nil => intro st; simp [registerTrace, registerAll]
  | cons x xs ih => intro st; simp [registerTrace, registerAll, List.cons_append, ih]

theorem registerTrace_length (us : List Str) :
    ∀ st, (registerTrace st us).length = us.length := by
  induction us with
  | nil => intro st; rfl
  | cons u us ih => intro st; simp [registerTrace, ih]

/-- C5: in any document (modelled as the sequence of urls passed to
`_register_link` in order), two references to the same url always resolve to
the same registry index, and the index handed out at a url's first occurrence
is 1 plus the number of distinct urls registered strictly before it. -/
theorem c5_link_registry_deterministic :
    (∀ (us : List Str) (k j : Nat), k < us.length → j < us.length →
      us.getD k [] = us.getD j [] →
      (registerTrace {} us).getD k 0 = (registerTrace {} us).getD j 0) ∧
    (∀ (us1 us2 : List Str) (u : Str), u ∉ us1 →
      (registerTrace {} (us1 ++ u :: us2)).getD us1.length 0 =
        (distinctPrefix us1).length + 1) := by
  constructor
  · intro us k j hk hj hsame
    have h1 := registerTrace_lookup_final us {} k hk
    have h2 := registerTrace_lookup_final us {} j hj
    rw [hsame] at h1
    rw [h1] at h2
    exact Option.some.inj h2
  · intro us1 us2 u hnm
    have hreg : RegistryOf (registerAll {} us1) (distinctPrefix us1) := by
      have := registerAll_registry us1 {} [] ⟨rfl, rfl⟩
      simpa [distinctPrefix] using this
    have hnmd : u ∉ distinctPrefix us1 := by
      intro hmem
      apply hnm
      have key : ∀ (l : List Str) (ds : List Str) (v : Str),
          v ∈ l.foldl (fun acc w => if w ∈ acc then acc else acc ++ [w]) ds →
          v ∈ ds ∨ v ∈ l := by
        intro l
        induction l with
        | nil => intro ds v hv; exact Or.inl hv
        | cons w ws ih =>
          intro ds v hv
          rcases ih _ v hv with hin | hin
          · have hin' : v ∈ if w ∈ ds then ds else ds ++ [w] := hin
            by_cases hw : w ∈ ds
            · rw [if_pos hw] at hin'; exact Or.inl hin'
            · rw [if_neg hw] at hin'
              rcases List.mem_append.mp hin' with hin2 | hin2
              · exact Or.inl hin2
              · simp only [List.mem_singleton] at hin2
                exact Or.inr (hin2 ▸ List.mem_cons_self w ws)
          · exact Or.inr (List.mem_cons_of_mem w hin)
      rcases key us1 [] u hmem with hin | hin
      · exact absurd hin (by simp)
      · exact hin
    have hnone : (registerAll {} us1).linkIndices.lookup u = none := by
      rw [hreg.2]; exact lookup_enumFromNat_of_not_mem _ u hnmd 1
    have hlen : (registerAll {} us1).links.length = (distinctPrefix us1).length := by
      rw [hreg.1]; exact enumLinks_length _ 1
    rw [registerTrace_append us1 (u :: us2) {}]
    rw [List.getD_eq_getElem?_getD]
    rw [List.getElem?_append_right (by rw [registerTrace_length])]
    rw [registerTrace_length]
    simp only [Nat.sub_self]
    simp only [registerTrace, registerLink, hnone, hlen, List.getElem?_cons_zero,
      Option.getD_some]

theorem c5_link_registry_deterministic_witness :
    (registerTrace {} ["a".toList, "b".toList, "a".toList]).getD 0 0 =
      (registerTrace {} ["a".toList, "b".toList, "a".toList]).getD 2 0 ∧
    (registerTrace {} (["a".toList] ++ "b".toList :: ["a".toList])).getD 1 0 =
      (distinctPrefix ["a".toList]).length + 1 :=
  ⟨c5_link_registry_deterministic.1 ["a".toList, "b".toList, "a".toList] 0 2
      (by decide) (by decide) (by decide),
   c5_link_registry_deterministic.2 ["a".toList] ["a".toList] "b".toList (by decide)⟩

/-! ### C7: restyle idempotence -/

theorem combineStyles_idem (b : BlockStyle) (s : StyleSpec) :
    combineStyles (combineStyles b (some s)) (some s) = combineStyles b (some s) := by
  simp only [combineStyles, BlockStyle.mk.injEq]
  refine ⟨?_, ?_, ?_⟩
  · cases s.align with
    | none => rfl
    | some a => by_cases ha : a = "" <;> simp [pyOrStr, ha]
  · cases s.margin_left <;> simp
  · cases s.margin_right <;> simp

/-- C7: applying the same `StyleUpdateEvent` twice in immediate succession
yields a renderer state identical to applying it once (the style merge is
idempotent and the stored render closure deterministic), provided the live
record's window starts inside the buffer. -/
theorem c7_restyle_idempotent (st : RendererState) (spec : StyleSpec)
    (h : ∀ r, st.lastStylable = some r → r.start ≤ st.output.length) :
    applyStyleToLastBlock (applyStyleToLastBlock st spec) spec =
      applyStyleToLastBlock st spec := by
  cases hr : st.lastStylable with
  | none => simp [applyStyleToLastBlock, hr]
  | some r =>
    have hstart := h r hr
    have hlen : (st.output.take r.start).length = r.start := by
      simp only [List.length_take]
      omega
    simp only [applyStyleToLastBlock, hr]
    rw [combineStyles_idem]
    have htake : (st.output.take r.start ++ r.render (combineStyles r.style (some spec)) ++
        st.output.drop (r.start + r.length)).take r.start = st.output.take r.start := by
      rw [List.append_assoc, List.take_left' hlen]
    have hdrop : (st.output.take r.start ++ r.render (combineStyles r.style (some spec)) ++
        st.output.drop (r.start + r.length)).drop
          (r.start + (r.render (combineStyles r.style (some spec))).length) =
        st.output.drop (r.start + r.length) := by
      rw [show r.start + (r.render (combineStyles r.style (some spec))).length =
        (st.output.take r.start ++ r.render (combineStyles r.style (some spec))).length by
          simp [hlen]]
      rw [List.append_assoc, ← List.append_assoc, List.drop_left]
    rw [htake, hdrop]

theorem c7_restyle_idempotent_witness :
    applyStyleToLastBlock (applyStyleToLastBlock
      { width := 10, frontmatter := {}, linkReg := {},
        output := ["a".toList, "b".toList, "c".toList],
        paragraphSpacing := 2, hyphenate := false, hyphenLang := "en_US",
        figletFallback := false, headerSpacing := 2, wrapCodeBlocks := false,
        codeBlockLineNumbers := true, blockquoteBars := true,
        wrapCodeBlocksIndent := 0, listMarkerIndent := 0, listTextSpacing := 1,
        baseStyle := {}, hyphenator := none,
        lastStylable := some ⟨1, 1, fun sty => [sty.align.toList], {}⟩ }
      { align := some "right" }) { align := some "right" } =
    applyStyleToLastBlock
      { width := 10, frontmatter := {}, linkReg := {},
        output := ["a".toList, "b".toList, "c".toList],
        paragraphSpacing := 2, hyphenate := false, hyphenLang := "en_US",
        figletFallback := false, headerSpacing := 2, wrapCodeBlocks := false,
        codeBlockLineNumbers := true, blockquoteBars := true,
        wrapCodeBlocksIndent := 0, listMarkerIndent := 0, listTextSpacing := 1,
        baseStyle := {}, hyphenator := none,
        lastStylable := some ⟨1, 1, fun sty => [sty.align.toList], {}⟩ }
      { align := some "right" } :=
  c7_restyle_idempotent _ { align := some "right" }
    (by intro r hr; cases hr; decide)

end Md2Txt
